import Mathlib

/-!
# tscache: a shallow embedding of the cache engine

The development follows the Go sources package by package:

* `lru/lru.go`            : the byte-budgeted LRU store (`TSCache.lru`),
* `consistenthash/...go`  : the consistent-hash ring (`TSCache.consistenthash`),
* `byteview.go`, `cache.go`, `tscache.go` : byte views, the locked cache and the group.

Conventions of the embedding.

* A Go `string` is a Lean `String`; `len(s)` is `s.utf8ByteSize`.
* A Go `[]byte` is a `List UInt8`.
* Go `int` is taken to be 64 bits wide.  `int64` arithmetic is integer arithmetic followed
  by `wrap64` (two's complement wrap-around).
* A Go `map[K]V` is an association list read through `GoMap.get`; a nil pointer is `none`.
* Pointers to `list.Element` are modelled by a numeric identity (`Element.id`) that is
  allocated fresh by `PushFront`.
* Calls run sequentially.  A call either returns (`Res.ok`), panics (`Res.panic`), waits
  forever on a signal nobody will send (`Res.blocked`), or exhausts the fuel of a loop
  (`Res.outOfFuel`, shown unreachable for the fuel the callers supply).
-/

namespace TSCache

/-! ## Outcomes and machine integers -/

/-- Outcome of one sequential call. -/
inductive Res (α : Type) where
  | ok (a : α)
  | panic
  | blocked
  | outOfFuel
  deriving DecidableEq, Repr

/-- Sequencing of outcomes: the continuation runs only after a normal return. -/
def Res.bind {α β : Type} (r : Res α) (f : α → Res β) : Res β :=
  match r with
  | .ok a => f a
  | .panic => .panic
  | .blocked => .blocked
  | .outOfFuel => .outOfFuel

/-- Two's complement wrap-around of an integer into the `int64` range. -/
def wrap64 (x : Int) : Int := (x + 2 ^ 63) % 2 ^ 64 - 2 ^ 63

/-- Go `len(s)` for a string: the number of bytes. -/
def strLen (s : String) : Int := (s.utf8ByteSize : Int)

/-! ## Go maps -/

/-- Go map as an association list; the first binding of a key is the live one. -/
abbrev GoMap (κ ν : Type) := List (κ × ν)

namespace GoMap

variable {κ ν : Type} [DecidableEq κ]

/-- Map read `m[k]`, with `none` for a missing key. -/
def get (m : GoMap κ ν) (k : κ) : Option ν :=
  match m with
  | [] => none
  | (k', v) :: t => if k' = k then some v else get t k

/-- Map deletion `delete(m, k)`. -/
def delete (m : GoMap κ ν) (k : κ) : GoMap κ ν :=
  m.filter (fun p => decide (p.1 ≠ k))

/-- Map write `m[k] = v`. -/
def set (m : GoMap κ ν) (k : κ) (v : ν) : GoMap κ ν :=
  (k, v) :: delete m k

/-- Builtin `len(m)`: the number of distinct keys. -/
def len (m : GoMap κ ν) : Nat := (m.map Prod.fst).dedup.length

end GoMap

/-! ## `lru/lru.go` -/

namespace lru

/-- The interface `Value`: anything that reports a length. -/
class Value (V : Type) where
  /-- Method `Len() int`. -/
  Len : V → Int

/-- The struct `entry`. -/
structure entry (V : Type) where
  key : String
  value : V
  deriving DecidableEq, Repr

/-- A `*list.Element` of `container/list` holding an `*entry`: `id` is the identity of the
element (its address), `Value` the payload. -/
structure Element (V : Type) where
  id : Nat
  Value : entry V
  deriving DecidableEq, Repr

/-- The method `(*list.List).MoveToFront`: an element of the list moves to the front, the
others keep their order; an element that is not in the list leaves the list alone. -/
def MoveToFront {V : Type} (ll : List (Element V)) (e : Element V) : List (Element V) :=
  if ll.any (fun x => x.id == e.id) then e :: ll.filter (fun x => x.id != e.id) else ll

/-- The method `(*list.List).Remove`. -/
def Remove {V : Type} (ll : List (Element V)) (e : Element V) : List (Element V) :=
  ll.filter (fun x => x.id != e.id)

/-- The struct `Cache`.  `ll` lists the elements front first.  The callback `OnEvicted` is
kept as a flag (configured or nil) together with the trace `evicted` of the calls made to
it; `nextId` is the allocator of element identities. -/
structure Cache (V : Type) where
  maxBytes : Int
  nbytes : Int
  ll : List (Element V)
  cache : GoMap String (Element V)
  OnEvicted : Bool
  evicted : List (String × V)
  nextId : Nat
  deriving DecidableEq, Repr

/-- The constructor `NewCache`. -/
def NewCache {V : Type} (maxBytes : Int) (onEvicted : Bool) : Cache V :=
  { maxBytes := maxBytes, nbytes := 0, ll := [], cache := [],
    OnEvicted := onEvicted, evicted := [], nextId := 0 }

variable {V : Type}

/-- The method `Cache.Get`: result `(value, ok)` and the store afterwards. -/
def Cache.Get (c : Cache V) (key : String) : (Option V × Bool) × Cache V :=
  match GoMap.get c.cache key with
  | some data => ((some data.Value.value, true), { c with ll := MoveToFront c.ll data })
  | none => ((none, false), c)

/-- The method `Cache.RemoveOldst`.  `Back()` of an empty list is nil and the field access
`data.Value` then panics.  Every element was pushed by `Add` with a non-nil `*entry`, so the
test `userData != nil` succeeds whenever it is reached. -/
def Cache.RemoveOldst [Value V] (c : Cache V) : Res (Cache V) :=
  match c.ll.getLast? with
  | none => .panic
  | some data =>
    let userData := data.Value
    .ok { c with
      cache := GoMap.delete c.cache userData.key
      ll := Remove c.ll data
      nbytes := wrap64 (wrap64 (c.nbytes - wrap64 (strLen userData.key))
                  - wrap64 (Value.Len userData.value))
      evicted := if c.OnEvicted then c.evicted ++ [(userData.key, userData.value)]
                 else c.evicted }

/-- The loop `for c.maxBytes != 0 && c.maxBytes < c.nbytes { c.RemoveOldst() }`, with a
bound on the number of iterations. -/
def Cache.evictLoop [Value V] : Nat → Cache V → Res (Cache V)
  | 0, c => if c.maxBytes ≠ 0 ∧ c.maxBytes < c.nbytes then .outOfFuel else .ok c
  | n + 1, c =>
    if c.maxBytes ≠ 0 ∧ c.maxBytes < c.nbytes then (c.RemoveOldst).bind (Cache.evictLoop n)
    else .ok c

/-- The method `Cache.Add`.  The loop is given one iteration per list element plus one:
each iteration that returns removes an element, so the bound is never met
(`Add_ne_outOfFuel`). -/
def Cache.Add [Value V] (c : Cache V) (key : String) (value : V) : Res (Cache V) :=
  let c1 : Cache V :=
    match GoMap.get c.cache key with
    | some data =>
      let userData := data.Value
      let oldSize := Value.Len userData.value
      { c with
        ll := MoveToFront c.ll data
        nbytes := wrap64 (wrap64 (c.nbytes - wrap64 oldSize) + wrap64 (Value.Len value)) }
    | none =>
      let newData : Element V := { id := c.nextId, Value := { key := key, value := value } }
      { c with
        ll := newData :: c.ll
        nextId := c.nextId + 1
        cache := GoMap.set c.cache key newData
        nbytes := wrap64 (c.nbytes + wrap64 (wrap64 (strLen key) + wrap64 (Value.Len value))) }
  Cache.evictLoop (c1.ll.length + 1) c1

/-- The method `Cache.Len`. -/
def Cache.Len (c : Cache V) : Nat := GoMap.len c.cache

/-- A call of one of the public methods of the store. -/
inductive Op (V : Type) where
  | Add (key : String) (value : V)
  | Get (key : String)
  | RemoveOldst
  deriving DecidableEq, Repr

/-- One call on the store. -/
def step [Value V] (c : Cache V) : Op V → Res (Cache V)
  | .Add key value => c.Add key value
  | .Get key => .ok (c.Get key).2
  | .RemoveOldst => c.RemoveOldst

/-- A sequence of calls, left to right; it stops at the first call that does not return. -/
def run [Value V] (c : Cache V) : List (Op V) → Res (Cache V)
  | [] => .ok c
  | op :: ops => (step c op).bind (fun c1 => run c1 ops)

/-- Whether an operation is `Add` or `Get` (the calls the group makes). -/
def Op.isAddGet : Op V → Bool
  | .Add _ _ => true
  | .Get _ => true
  | .RemoveOldst => false

/-- Strings as store values, charged by their byte length (used for test vectors). -/
instance : Value String := ⟨fun s => strLen s⟩

/-- Per-entry charge `len(key) + value.Len()`, as an integer. -/
def charge [Value V] (e : Element V) : Int := strLen e.Value.key + Value.Len e.Value.value

/-- Whether a key is present in the store (bound in the index). -/
def Cache.has (c : Cache V) (key : String) : Bool := (GoMap.get c.cache key).isSome

/-- The key an operation accesses: `Add` accesses its key, `Get` accesses its key when the
lookup succeeds, `RemoveOldst` accesses none. -/
def touches (c : Cache V) : Op V → Option String
  | .Add key _ => some key
  | .Get key => if c.has key then some key else none
  | .RemoveOldst => none

/-- A store together with a logical clock: `now` counts the calls made so far and
`stamps` records for each key the time of the last access to it.  The clock is an
observer: it does not influence the store. -/
structure Clocked (V : Type) where
  store : Cache V
  now : Nat
  stamps : GoMap String Nat
  deriving DecidableEq, Repr

/-- Time of the last access to a key (`0` for never). -/
def Clocked.stamp (s : Clocked V) (k : String) : Nat := (GoMap.get s.stamps k).getD 0

/-- A fresh clocked store. -/
def Clocked.init (maxBytes : Int) (onEvicted : Bool) : Clocked V :=
  { store := NewCache maxBytes onEvicted, now := 0, stamps := [] }

/-- One call on a clocked store. -/
def stepT [Value V] (s : Clocked V) (op : Op V) : Res (Clocked V) :=
  (step s.store op).bind (fun c1 =>
    .ok { store := c1
          now := s.now + 1
          stamps := match touches s.store op with
            | some k => GoMap.set s.stamps k (s.now + 1)
            | none => s.stamps })

/-- A sequence of calls on a clocked store. -/
def runT [Value V] (s : Clocked V) : List (Op V) → Res (Clocked V)
  | [] => .ok s
  | op :: ops => (stepT s op).bind (fun s1 => runT s1 ops)

/-- Structural invariant of the store: element identities are distinct and below the
allocator, and the index binds a key to an element exactly when that element is in the
list and holds that key. -/
structure Inv (c : Cache V) : Prop where
  ids_nodup : (c.ll.map (fun e => e.id)).Nodup
  ids_lt : ∀ e ∈ c.ll, e.id < c.nextId
  index : ∀ k e, GoMap.get c.cache k = some e ↔ (e ∈ c.ll ∧ e.Value.key = k)

/-- The list is in recency order for a stamp function: every element was accessed more
recently than the elements behind it. -/
def Ordered (stamp : String → Nat) (ll : List (Element V)) : Prop :=
  ll.Pairwise (fun a b => stamp b.Value.key < stamp a.Value.key)

/-- Invariant of a clocked store: the structural invariant, the list in recency order, and
no stamp in the future. -/
def TInv (s : Clocked V) : Prop :=
  Inv s.store ∧ Ordered s.stamp s.store.ll ∧ ∀ k, s.stamp k ≤ s.now

/-- Exact accounting: the charge is the (wrapped) sum of the per-entry charges. -/
def Acct [Value V] (c : Cache V) : Prop := c.nbytes = wrap64 ((c.ll.map charge).sum)

end lru

/-! ## `consistenthash/consistenthash.go` -/

namespace consistenthash

/-- The type `Hash`, `func(data []byte) uint32`: a function to naturals whose value is
read modulo `2 ^ 32`. -/
abbrev Hash := List UInt8 → Nat

/-- The conversion `[]byte(s)`: the UTF-8 bytes of a string. -/
def bytesOf (s : String) : List UInt8 := s.data.flatMap String.utf8EncodeChar

/-- One byte of the bitwise CRC-32 (IEEE, reflected polynomial `0xEDB88320`). -/
def crcByte (crc : Nat) (b : UInt8) : Nat :=
  (List.range 8).foldl
    (fun c _ => if c % 2 = 1 then Nat.xor (c / 2) 0xEDB88320 else c / 2)
    (Nat.xor crc b.toNat)

/-- The library function `crc32.ChecksumIEEE`. -/
def ChecksumIEEE : Hash := fun data =>
  Nat.xor (data.foldl crcByte 0xFFFFFFFF) 0xFFFFFFFF

/-- The library function `strconv.Itoa` on the non-negative replica indices. -/
def Itoa (i : Nat) : String := Nat.repr i

/-- The struct `Node`.  A `*Node` handed to `Add` is non-nil (a nil node panics at
`node.Name`) and is modelled by its value. -/
structure Node where
  Name : String
  deriving DecidableEq, Repr

/-- The struct `Map`. -/
structure Map where
  hash : Hash
  replicas : Int
  keys : List Int
  hashMap : GoMap Int Node

/-- The constructor `NewMap`; a nil `fn` selects `crc32.ChecksumIEEE`. -/
def NewMap (replicas : Int) (fn : Option Hash) : Map :=
  { hash := match fn with
      | some f => f
      | none => ChecksumIEEE
    replicas := replicas, keys := [], hashMap := [] }

/-- The expression `int(m.hash([]byte(s)))`: a `uint32` converted to a 64-bit `int`. -/
def Map.hashInt (m : Map) (s : String) : Int := ((m.hash (bytesOf s) % 2 ^ 32 : Nat) : Int)

/-- Body of the inner loop of `Add` for replica `i` of `node`. -/
def Map.addReplica (m : Map) (node : Node) (i : Nat) : Map :=
  let hash := m.hashInt (node.Name ++ Itoa i)
  { m with keys := m.keys ++ [hash], hashMap := GoMap.set m.hashMap hash node }

/-- Inner loop of `Add`: `for i := 0; i < m.replicas; i++`. -/
def Map.addNode (m : Map) (node : Node) : Map :=
  (List.range m.replicas.toNat).foldl (fun acc i => acc.addReplica node i) m

/-- The method `Map.Add`; `sort.Ints` is the ascending sort. -/
def Map.Add (m : Map) (nodes : List Node) : Map :=
  let m1 := nodes.foldl Map.addNode m
  { m1 with keys := m1.keys.insertionSort (fun a b => a ≤ b) }

/-- Loop of the library function `sort.Search`: binary search on `[i, j)`. -/
def searchLoop (f : Nat → Bool) : Nat → Nat → Nat → Nat
  | 0, i, _ => i
  | fuel + 1, i, j =>
    if i < j then
      let h := (i + j) / 2
      if !f h then searchLoop f fuel (h + 1) j else searchLoop f fuel i h
    else i

/-- The library function `sort.Search(n, f)`.  The interval shrinks with every iteration,
so `n` iterations suffice. -/
def Search (n : Nat) (f : Nat → Bool) : Nat := searchLoop f n 0 n

/-- The method `Map.SelectNode`, returning `(*Node, error)`.  The index expressions are
in range (`Search` probes below `len(m.keys)`, and `idx % len(m.keys) < len(m.keys)`), so
the default of `getD` is never used. -/
def Map.SelectNode (m : Map) (key : String) : Option Node × Option String :=
  if m.keys.length = 0 then (none, some "no nodes available")
  else
    let hash := m.hashInt key
    let idx := Search m.keys.length (fun i => decide (m.keys.getD i 0 ≥ hash))
    (GoMap.get m.hashMap (m.keys.getD (idx % m.keys.length) 0), none)

/-- A ring built by `NewMap` followed by a sequence of `Add` calls. -/
def build (replicas : Int) (fn : Option Hash) (batches : List (List Node)) : Map :=
  batches.foldl Map.Add (NewMap replicas fn)

/-- The `(hash, node)` pairs one `Add` call produces, in the order of its loops. -/
def Map.newPoints (m : Map) (nodes : List Node) : List (Int × Node) :=
  nodes.flatMap (fun node =>
    (List.range m.replicas.toNat).map (fun i => (m.hashInt (node.Name ++ Itoa i), node)))

/-- Insertion of a list of `(hash, node)` pairs, pair by pair: what the two loops of `Add`
amount to. -/
def Map.addPoints (m : Map) (pts : List (Int × Node)) : Map :=
  pts.foldl (fun acc p =>
    { acc with keys := acc.keys ++ [p.1], hashMap := GoMap.set acc.hashMap p.1 p.2 }) m

/-- The node of the last pair of a list that carries a given hash. -/
def lastBinding (pts : List (Int × Node)) (h : Int) : Option Node :=
  (pts.reverse.find? (fun p => decide (p.1 = h))).map Prod.snd

/-- The hash of the tests: the first byte minus the byte of the digit zero. -/
def digitHash : Hash := fun data => (data.headD 0 - 48).toNat

end consistenthash

/-! ## `byteview.go`, `cache.go`, `tscache.go` -/

/-- The struct `ByteView`. -/
structure ByteView where
  B : List UInt8
  deriving DecidableEq, Repr

/-- The function `cloneBytes`: a fresh slice with the same contents. -/
def cloneBytes (b : List UInt8) : List UInt8 := b

/-- The method `ByteView.Len`. -/
def ByteView.Len (v : ByteView) : Int := (v.B.length : Int)

/-- The method `ByteView.ByteSlice`. -/
def ByteView.ByteSlice (v : ByteView) : List UInt8 := cloneBytes v.B

/-- The method `ByteView.String`: the Go string `string(v.B)`, given by its bytes. -/
def ByteView.String (v : ByteView) : List UInt8 := v.B

instance : lru.Value ByteView := ⟨ByteView.Len⟩

/-- The struct `cache` (the mutex is not modelled: calls are sequential). -/
structure cache where
  lru : Option (lru.Cache ByteView)
  cacheBytes : Int

/-- The method `cache.add`. -/
def cache.add (c : cache) (key : String) (value : ByteView) : Res cache :=
  let l : lru.Cache ByteView :=
    match c.lru with
    | none => lru.NewCache c.cacheBytes false
    | some l => l
  (l.Add key value).bind (fun l1 => .ok { c with lru := some l1 })

/-- The method `cache.get`. -/
def cache.get (c : cache) (key : String) : (ByteView × Bool) × cache :=
  match c.lru with
  | none => ((ByteView.mk [], false), c)
  | some l =>
    let r := l.Get key
    match r.1 with
    | (some ret, true) => ((ret, true), { c with lru := some r.2 })
    | _ => ((ByteView.mk [], false), { c with lru := some r.2 })

/-- A Go `error`: nil or a message. -/
abbrev GoError := Option String

/-- The interface `Getter` (the backing loader): `Get(key) ([]byte, error)`. -/
abbrev Getter := String → List UInt8 × GoError

/-- The interface `PeerGetter`: `Get(in, out) error`, as a function of the request fields
`(group, key)` returning the value left in the response and the error. -/
abbrev PeerGetter := String → String → List UInt8 × GoError

/-- The interface `PeerPicker`: `PickPeer(key) (peer, ok)`; the peer may be nil. -/
abbrev PeerPicker := String → Option PeerGetter × Bool

/-- The struct `call`; the `interface{}` value holds a `ByteView` or nil. -/
structure call where
  val : Option ByteView
  err : GoError

/-- The struct `Group`.  The fields `loads`, `picks` and `fetches` are traces of the keys
handed to the loader, to `PickPeer` and to a peer, in call order. -/
structure Group where
  name : String
  getter : Getter
  mainCache : cache
  peers : Option PeerPicker
  m : Option (GoMap String call)
  loads : List String
  picks : List String
  fetches : List String

/-- The constructor `NewGroup`: a nil getter panics.  (The registration `groups[name] = g`
acts on the package registry, which is not part of the group.) -/
def NewGroup (name : String) (cacheBytes : Int) (getter : Option Getter) : Res Group :=
  match getter with
  | none => .panic
  | some gt =>
    .ok { name := name, getter := gt
          mainCache := { lru := some (lru.NewCache cacheBytes false), cacheBytes := cacheBytes }
          peers := none, m := none, loads := [], picks := [], fetches := [] }

/-- The in-flight table read at a key (a nil table has no entries). -/
def Group.inflight (g : Group) (key : String) : Option call :=
  GoMap.get (g.m.getD []) key

/-- Result type of the calls that yield `(value, error)` and change the group. -/
abbrev GroupRes (α : Type) := Res ((α × GoError) × Group)

/-- The method `Group.Do` for one sequential caller.  When the table already holds a call
for the key, the caller waits on its `WaitGroup`, which only another goroutine can
release.  Otherwise the caller registers a call, runs `fn`, and deletes the call. -/
def Group.Do (g : Group) (key : String) (fn : Group → GroupRes (Option ByteView)) :
    GroupRes (Option ByteView) :=
  let tbl : GoMap String call := g.m.getD []
  match GoMap.get tbl key with
  | some _ => .blocked
  | none =>
    let c : call := { val := none, err := none }
    let g2 := { g with m := some (GoMap.set tbl key c) }
    (fn g2).bind (fun r =>
      .ok (r.1, { r.2 with m := (r.2.m).map (fun t => GoMap.delete t key) }))

/-- The method `Group.getFromPeer`; a nil peer panics at the method call. -/
def Group.getFromPeer (g : Group) (peer : Option PeerGetter) (key : String) :
    GroupRes ByteView :=
  match peer with
  | none => .panic
  | some p =>
    let r := p g.name key
    let g1 := { g with fetches := g.fetches ++ [key] }
    if r.2 ≠ none then .ok ((ByteView.mk [], r.2), g1)
    else .ok ((ByteView.mk r.1, none), g1)

/-- The method `Group.getLocally`. -/
def Group.getLocally (g : Group) (key : String) : GroupRes ByteView :=
  let r := g.getter key
  let g1 := { g with loads := g.loads ++ [key] }
  if r.2 ≠ none then .ok ((ByteView.mk [], r.2), g1)
  else
    let value : ByteView := { B := cloneBytes r.1 }
    (g1.mainCache.add key value).bind (fun mc =>
      .ok ((value, none), { g1 with mainCache := mc }))

/-- The closure `load` hands to `Do`. -/
def Group.loadFn (key : String) (g : Group) : GroupRes (Option ByteView) :=
  let wrap (r : GroupRes ByteView) : GroupRes (Option ByteView) :=
    r.bind (fun x => .ok ((some x.1.1, x.1.2), x.2))
  match g.peers with
  | none => wrap (g.getLocally key)
  | some peers =>
    let pk := peers key
    let g1 := { g with picks := g.picks ++ [key] }
    if pk.2 then
      (g1.getFromPeer pk.1 key).bind (fun x =>
        if x.1.2 = none then .ok ((some x.1.1, none), x.2)
        else wrap (x.2.getLocally key))
    else wrap (g1.getLocally key)

/-- The method `Group.load`; the assertion `data.(ByteView)` panics on a nil value. -/
def Group.load (g : Group) (key : String) : GroupRes ByteView :=
  (g.Do key (Group.loadFn key)).bind (fun r =>
    match r.1.1 with
    | some v => .ok ((v, r.1.2), r.2)
    | none => .panic)

/-- The method `Group.Get`. -/
def Group.Get (g : Group) (key : String) : GroupRes ByteView :=
  if key = "" then .ok ((ByteView.mk [], some "key is empty"), g)
  else
    let r := g.mainCache.get key
    let g1 := { g with mainCache := r.2 }
    if r.1.2 then .ok ((r.1.1, none), g1)
    else g1.load key

/-- The method `Group.RegisterNodes`; the argument is an interface value and may be nil. -/
def Group.RegisterNodes (g : Group) (peers : Option PeerPicker) : Res Group :=
  match g.peers with
  | some _ => .panic
  | none => .ok { g with peers := peers }

/-- The group as a call of `RegisterNodes` leaves it, whether the call returns or panics:
the panic comes before the assignment `g.peers = peers`. -/
def Group.afterRegisterNodes (g : Group) (peers : Option PeerPicker) : Group :=
  match g.peers with
  | some _ => g
  | none => { g with peers := peers }

/-- A sequence of `Get` calls on a group, results dropped; it stops at the first call
that does not return. -/
def Group.gets (g : Group) : List String → Res Group
  | [] => .ok g
  | key :: keys => (g.Get key).bind (fun r => Group.gets r.2 keys)

/-- A group made by `NewGroup` and then used through a sequence of `Get` calls. -/
def Group.made (name : String) (cacheBytes : Int) (getter : Getter) (keys : List String) :
    Res Group :=
  (NewGroup name cacheBytes (some getter)).bind (fun g => g.gets keys)

/-- Whether the local cache of the group holds a key. -/
def Group.cached (g : Group) (key : String) : Bool :=
  match g.mainCache.lru with
  | none => false
  | some l => l.has key

/-- Invariant of a group without picker that is used by one caller at a time: no call is
in flight, and the local store satisfies the structural invariant, accounts exactly, and
carries the budget of the group, which is not negative. -/
structure Group.Inv (g : Group) : Prop where
  no_peers : g.peers = none
  idle : ∀ k, g.inflight k = none
  store : ∃ l, g.mainCache.lru = some l ∧ lru.Inv l ∧ lru.Acct l ∧ 0 ≤ l.maxBytes ∧
    l.maxBytes = g.mainCache.cacheBytes

/-- The group after a load of `key` through the loader, given the local cache then. -/
def Group.loaded (g : Group) (key : String) (mc : cache) : Group :=
  { g with
    mainCache := mc
    m := some (GoMap.delete (GoMap.set (g.m.getD []) key { val := none, err := none }) key)
    loads := g.loads ++ [key] }

/-- The value and error of a call, and the trace of loader calls after it. -/
def viewOf (r : GroupRes ByteView) : Res ((ByteView × GoError) × List String) :=
  r.bind (fun x => .ok (x.1, x.2.loads))

/-- Whether an outcome is a panic. -/
def Res.isPanic {α : Type} : Res α → Bool
  | .panic => true
  | _ => false

/-- Mapping over the value of an outcome. -/
def Res.map {α β : Type} (f : α → β) (r : Res α) : Res β :=
  r.bind (fun a => .ok (f a))

/-- A call of one of the public methods of a group. -/
inductive GroupOp where
  | Get (key : String)
  | RegisterNodes (peers : Option PeerPicker)

/-- One call on a group, the result of `Get` dropped. -/
def Group.step (g : Group) : GroupOp → Res Group
  | .Get key => (g.Get key).map (fun r => r.2)
  | .RegisterNodes peers => g.RegisterNodes peers

/-- A sequence of calls on a group, one after the other; it stops at the first call that
does not return. -/
def Group.run (g : Group) : List GroupOp → Res Group
  | [] => .ok g
  | op :: ops => (g.step op).bind (fun g1 => Group.run g1 ops)

/-- A group made by `NewGroup` and then used through a sequence of calls. -/
def Group.reached (name : String) (cacheBytes : Int) (getter : Getter)
    (ops : List GroupOp) : Res Group :=
  (NewGroup name cacheBytes (some getter)).bind (fun g => g.run ops)

/-- What a call of `Get` shows to its caller and to the local side of the group: the
returned pair, the local cache and the trace of loader calls. -/
def localView (r : (ByteView × GoError) × Group) : (ByteView × GoError) × cache × List String :=
  (r.1, r.2.mainCache, r.2.loads)

/-! ### The registry of groups (`groups`, `NewGroup`, `GetGroup`) -/

/-- The package variable `groups` together with the groups allocated so far: a `*Group` is
the position of the group in `heap`. -/
structure Registry where
  heap : List Group
  groups : GoMap String Nat

/-- The registry at program start: `groups = make(map[string]*Group)`. -/
def Registry.start : Registry := { heap := [], groups := [] }

/-- The function `NewGroup` with its effect on the registry: the new group is allocated
and `groups[name] = g` is written; the result is the pointer to the new group. -/
def Registry.NewGroup (w : Registry) (name : String) (cacheBytes : Int)
    (getter : Option Getter) : Res (Nat × Registry) :=
  (TSCache.NewGroup name cacheBytes getter).bind (fun g =>
    .ok (w.heap.length,
      { heap := w.heap ++ [g], groups := GoMap.set w.groups name w.heap.length }))

/-- The function `GetGroup`: the pointer bound to the name, or nil. -/
def Registry.GetGroup (w : Registry) (name : String) : Option Nat :=
  GoMap.get w.groups name

/-- The arguments of one `NewGroup` call with a non-nil loader. -/
structure NewGroupCall where
  name : String
  cacheBytes : Int
  getter : Getter

/-- A sequence of `NewGroup` calls with non-nil loaders. -/
def Registry.news (w : Registry) : List NewGroupCall → Res Registry
  | [] => .ok w
  | c :: cs => (w.NewGroup c.name c.cacheBytes (some c.getter)).bind (fun r => r.2.news cs)

/-! ### `http.go`: the peer picker of the pool -/

/-- The constant `defaultBasePath`. -/
def defaultBasePath : String := "/_tscache/"

/-- The constant `defaultReplicas`. -/
def defaultReplicas : Int := 50

/-- The struct `httpGetter`. -/
structure httpGetter where
  baseURL : String
  deriving DecidableEq, Repr

/-- The struct `HTTPPool` (the mutex is not modelled); `peers` is nil until `Set`. -/
structure HTTPPool where
  self : String
  basePath : String
  peers : Option consistenthash.Map
  httpGetters : GoMap String httpGetter

/-- The constructor `NewHTTPPool`. -/
def NewHTTPPool (self : String) : HTTPPool :=
  { self := self, basePath := defaultBasePath, peers := none, httpGetters := [] }

/-- The method `HTTPPool.Set`. -/
def HTTPPool.Set (p : HTTPPool) (nodes : List consistenthash.Node) : HTTPPool :=
  { p with
    peers := some ((consistenthash.NewMap defaultReplicas none).Add nodes)
    httpGetters := nodes.foldl
      (fun acc node => GoMap.set acc node.Name { baseURL := node.Name ++ p.basePath }) [] }

/-- The method `HTTPPool.PickPeer`, returning `(PeerGetter, bool)`; before `Set` the ring
pointer is nil and `SelectNode` panics at `len(m.keys)`. -/
def HTTPPool.PickPeer (p : HTTPPool) (key : String) : Res (Option httpGetter × Bool) :=
  match p.peers with
  | none => .panic
  | some ring =>
    match (ring.SelectNode key).1 with
    | some peer =>
      if peer.Name ≠ p.self then .ok (GoMap.get p.httpGetters peer.Name, true)
      else .ok (none, false)
    | none => .ok (none, false)

/-! ### Observers of the store -/

/-- The keys inserted by the `Add` calls of a sequence, in call order. -/
def lru.addedKeys {V : Type} : List (lru.Op V) → List String
  | [] => []
  | .Add key _ :: ops => key :: lru.addedKeys ops
  | _ :: ops => lru.addedKeys ops

/-- The list after the promotion of the entry of `key` held by element `e`: `e` at the
front, the other elements in their previous order. -/
def lru.promoted {V : Type} (ll : List (lru.Element V)) (e : lru.Element V) (key : String) :
    List (lru.Element V) :=
  e :: ll.filter (fun x => decide (x.Value.key ≠ key))

/-- The group with a call for `key` registered in the in-flight table. -/
def Group.armed (g : Group) (key : String) : Group :=
  { g with m := some (GoMap.set (g.m.getD []) key { val := none, err := none }) }

/-- Position of the last call of a sequence that uses a given name. -/
def Registry.lastCall : List NewGroupCall → String → Option Nat
  | [], _ => none
  | c :: cs, name =>
    match Registry.lastCall cs name with
    | some i => some (i + 1)
    | none => if c.name = name then some 0 else none

/-- The group a `NewGroup` call creates. -/
def NewGroupCall.group (c : NewGroupCall) : Group :=
  { name := c.name, getter := c.getter
    mainCache := { lru := some (lru.NewCache c.cacheBytes false), cacheBytes := c.cacheBytes }
    peers := none, m := none, loads := [], picks := [], fetches := [] }

/-- The ring point `m.keys[idx % len(m.keys)]` that `SelectNode` resolves a key to. -/
def consistenthash.Map.point (m : consistenthash.Map) (key : String) : Int :=
  m.keys.getD
    (consistenthash.Search m.keys.length (fun i => decide (m.keys.getD i 0 ≥ m.hashInt key))
      % m.keys.length) 0

/-- What `Do` does after its closure returned: the call is deleted from the table. -/
def Group.settle (key : String) (r : (Option ByteView × GoError) × Group) :
    (Option ByteView × GoError) × Group :=
  (r.1, { r.2 with m := (r.2.m).map (fun t => GoMap.delete t key) })

/-! ## Test vectors -/

/-- The loader of the test `TestGroup`: a table of three names. -/
def db : Getter := fun key =>
  if key = "Tom" then (consistenthash.bytesOf "630", none)
  else if key = "Jack" then (consistenthash.bytesOf "589", none)
  else if key = "Sam" then (consistenthash.bytesOf "567", none)
  else ([], some "can't found data")

/-- The group `NewGroup(name, cacheBytes, db)` right after its creation. -/
def freshGroup (name : String) (cacheBytes : Int) : Group :=
  { name := name, getter := db
    mainCache := { lru := some (lru.NewCache cacheBytes false), cacheBytes := cacheBytes }
    peers := none, m := none, loads := [], picks := [], fetches := [] }

/-- An element of a store of strings. -/
def elt (id : Nat) (key value : String) : lru.Element String :=
  { id := id, Value := { key := key, value := value } }

/-- The first three insertions of the eviction scenario of the spec. -/
def threeAdds : List (lru.Op String) :=
  [.Add "aaa" "1", .Add "bbb" "22", .Add "ccc" "333"]

/-- The four insertions of the eviction scenario of the spec. -/
def fourAdds : List (lru.Op String) := threeAdds ++ [.Add "ddd" "4444"]

/-- The clocked store of budget 20 after `threeAdds`. -/
def afterThree : lru.Clocked String :=
  { store :=
      { maxBytes := 20, nbytes := 15
        ll := [elt 2 "ccc" "333", elt 1 "bbb" "22", elt 0 "aaa" "1"]
        cache := [("ccc", elt 2 "ccc" "333"), ("bbb", elt 1 "bbb" "22"), ("aaa", elt 0 "aaa" "1")]
        OnEvicted := true, evicted := [], nextId := 3 }
    now := 3
    stamps := [("ccc", 3), ("bbb", 2), ("aaa", 1)] }

/-- The clocked store of budget 20 after `fourAdds`. -/
def afterFour : lru.Clocked String :=
  { store :=
      { maxBytes := 20, nbytes := 18
        ll := [elt 3 "ddd" "4444", elt 2 "ccc" "333", elt 1 "bbb" "22"]
        cache := [("ddd", elt 3 "ddd" "4444"), ("ccc", elt 2 "ccc" "333"),
                  ("bbb", elt 1 "bbb" "22")]
        OnEvicted := true, evicted := [("aaa", "1")], nextId := 4 }
    now := 4
    stamps := [("ddd", 4), ("ccc", 3), ("bbb", 2), ("aaa", 1)] }

/-- The ring of the test `TestGetNode`: one replica, peers `2`, `4`, `8`. -/
def ring248 : consistenthash.Map :=
  consistenthash.build 1 (some consistenthash.digitHash) [[⟨"2"⟩, ⟨"4"⟩, ⟨"8"⟩]]

/-- The ring of `TestGetNode` after the later `Add` of peer `6`. -/
def ring2486 : consistenthash.Map :=
  consistenthash.build 1 (some consistenthash.digitHash) [[⟨"2"⟩, ⟨"4"⟩, ⟨"8"⟩], [⟨"6"⟩]]

/-- An empty ring under the hash of the tests, one replica per node. -/
def ringEmpty : consistenthash.Map := consistenthash.NewMap 1 (some consistenthash.digitHash)

/-- The store of budget 10 that holds the single entry `("a","1")`. -/
def oneA : lru.Cache String :=
  { maxBytes := 10, nbytes := 2, ll := [elt 0 "a" "1"], cache := [("a", elt 0 "a" "1")]
    OnEvicted := false, evicted := [], nextId := 1 }

/-- The store `oneA` after `Add("a", "0123456789")`. -/
def afterBigReadd : lru.Cache String :=
  { maxBytes := 10, nbytes := 9, ll := [], cache := []
    OnEvicted := false, evicted := [], nextId := 1 }

/-- A sequence of insertions and lookups with a repeated key and a lookup that misses. -/
def unboundedOps : List (lru.Op String) :=
  [.Add "aaa" "1", .Get "aaa", .Add "bbb" "22", .Add "aaa" "333", .Get "zzz"]

/-- A peer that holds `Tom` and fails for every other key. -/
def remotePeer : PeerGetter := fun _ key =>
  if key = "Tom" then (consistenthash.bytesOf "remote", none) else ([], some "peer down")

/-- A picker that sends every key to `remotePeer`. -/
def remotePicker : PeerPicker := fun _ => (some remotePeer, true)

/-- The fresh group of budget 1000 with `remotePicker` registered. -/
def pickedGroup : Group := { freshGroup "MainCache" 1000 with peers := some remotePicker }

/-- Two `NewGroup` calls under the same name, with budgets 1 and 2. -/
def twoGroupsA : List NewGroupCall :=
  [{ name := "a", cacheBytes := 1, getter := db }, { name := "a", cacheBytes := 2, getter := db }]

/-- The ring of the colliding nodes `2a` and `2b` under the hash of the tests. -/
def ringCollide : consistenthash.Map := ringEmpty.Add [⟨"2a"⟩, ⟨"2b"⟩]

/-- A value of twenty bytes. -/
def twentyBytes : String := "01234567890123456789"

/-- A closure for `Do` that records its call in the trace of loader calls and fails. -/
def failingFn : Group → GroupRes (Option ByteView) := fun g =>
  .ok ((none, some "boom"), { g with loads := g.loads ++ ["fn"] })

/-- Two insertions under one key with values of different lengths. -/
def readd : List (lru.Op String) := [.Add "a" "1", .Add "a" "22"]

/-- The store of budget 20 after `readd`. -/
def afterReadd : lru.Cache String :=
  { maxBytes := 20, nbytes := 3, ll := [elt 0 "a" "1"], cache := [("a", elt 0 "a" "1")]
    OnEvicted := false, evicted := [], nextId := 1 }

/-! ## Theorems -/

/-! ### Outcomes, wrap-around, maps -/

theorem Res.bind_eq_ok {α β : Type} {r : Res α} {f : α → Res β} {b : β}
    (h : r.bind f = .ok b) : ∃ a, r = .ok a ∧ f a = .ok b := by
  cases r <;> simp [Res.bind] at h
  exact ⟨_, rfl, h⟩

theorem wrap64_zero : wrap64 0 = 0 := by decide

theorem wrap64_le_self {x : Int} (h : 0 ≤ x) : wrap64 x ≤ x := by
  unfold wrap64; omega

theorem wrap64_sub_sub (n a b : Int) :
    wrap64 (wrap64 (n - wrap64 a) - wrap64 b) = wrap64 (n - a - b) := by
  unfold wrap64; omega

theorem wrap64_add_add (n a b : Int) :
    wrap64 (n + wrap64 (wrap64 a + wrap64 b)) = wrap64 (n + (a + b)) := by
  unfold wrap64; omega

theorem wrap64_wrap_add (s a : Int) : wrap64 (wrap64 s + a) = wrap64 (s + a) := by
  unfold wrap64; omega

theorem wrap64_wrap_sub (s a : Int) : wrap64 (wrap64 s - a) = wrap64 (s - a) := by
  unfold wrap64; omega

namespace GoMap

variable {κ ν : Type} [DecidableEq κ]

theorem get_delete (m : GoMap κ ν) (k k' : κ) :
    get (delete m k) k' = if k' = k then none else get m k' := by
  induction m with
  | nil => simp [delete, get]
  | cons p t ih =>
    obtain ⟨a, b⟩ := p
    unfold delete at ih ⊢
    by_cases hak : a = k
    · subst hak
      simp only [List.filter, ne_eq, not_true_eq_false, decide_False]
      rw [ih]
      by_cases hk : k' = a
      · simp [hk]
      · have : ¬ a = k' := fun h => hk h.symm
        simp [hk, get, this]
    · simp only [List.filter, ne_eq, hak, not_false_eq_true, decide_True]
      by_cases hk : k' = k
      · subst hk
        simp only [get, hak, if_false]
        simpa using ih
      · simp only [get, hk, if_false] at ih ⊢
        rw [ih]

theorem get_set (m : GoMap κ ν) (k k' : κ) (v : ν) :
    get (set m k v) k' = if k' = k then some v else get m k' := by
  unfold set
  by_cases hk : k' = k
  · subst hk; simp [get]
  · have : ¬ k = k' := fun h => hk h.symm
    simp [get, this, hk, get_delete]

end GoMap

namespace lru

variable {V : Type}

/-! ### The eviction loop -/

theorem RemoveOldst_maxBytes [Value V] {c c1 : Cache V} (h : c.RemoveOldst = .ok c1) :
    c1.maxBytes = c.maxBytes := by
  unfold Cache.RemoveOldst at h
  cases hl : c.ll.getLast? with
  | none => simp [hl] at h
  | some data =>
    simp only [hl, Res.ok.injEq] at h
    subst h; rfl

theorem evictLoop_post [Value V] (n : Nat) (c c1 : Cache V)
    (h : Cache.evictLoop n c = .ok c1) :
    c1.maxBytes = c.maxBytes ∧ ¬ (c1.maxBytes ≠ 0 ∧ c1.maxBytes < c1.nbytes) := by
  induction n generalizing c with
  | zero =>
    unfold Cache.evictLoop at h
    split at h
    · cases h
    · cases h
      exact ⟨rfl, by assumption⟩
  | succ n ih =>
    unfold Cache.evictLoop at h
    split at h
    · obtain ⟨c2, h2, h3⟩ := Res.bind_eq_ok h
      have := ih c2 h3
      exact ⟨this.1.trans (RemoveOldst_maxBytes h2), this.2⟩
    · cases h
      exact ⟨rfl, by assumption⟩

theorem Add_post [Value V] {c c1 : Cache V} {key : String} {value : V}
    (h : c.Add key value = .ok c1) :
    c1.maxBytes = c.maxBytes ∧ ¬ (c1.maxBytes ≠ 0 ∧ c1.maxBytes < c1.nbytes) := by
  unfold Cache.Add at h
  have := evictLoop_post _ _ _ h
  refine ⟨?_, this.2⟩
  rw [this.1]
  cases hg : GoMap.get c.cache key <;> simp [hg]

theorem Get_frame (c : Cache V) (key : String) :
    (c.Get key).2.maxBytes = c.maxBytes ∧ (c.Get key).2.nbytes = c.nbytes ∧
    (c.Get key).2.cache = c.cache ∧ (c.Get key).2.nextId = c.nextId ∧
    (c.Get key).2.evicted = c.evicted := by
  unfold Cache.Get
  cases hg : GoMap.get c.cache key <;> simp [hg]

theorem run_budget [Value V] (M : Int) (hM : 0 < M) (ops : List (Op V))
    (hops : ∀ op ∈ ops, op.isAddGet = true) (c c1 : Cache V)
    (hc : c.maxBytes = M ∧ c.nbytes ≤ M)
    (h : run c ops = .ok c1) : c1.maxBytes = M ∧ c1.nbytes ≤ M := by
  induction ops generalizing c with
  | nil =>
    simp only [run, Res.ok.injEq] at h
    subst h; exact hc
  | cons op ops ih =>
    simp only [run] at h
    obtain ⟨c2, h2, h3⟩ := Res.bind_eq_ok h
    have hops2 : ∀ op ∈ ops, op.isAddGet = true := fun o ho => hops o (List.mem_cons_of_mem _ ho)
    refine ih hops2 c2 ?_ h3
    have hop := hops op (List.mem_cons_self _ _)
    cases op with
    | Add key value =>
      simp only [step] at h2
      have hp := Add_post h2
      rw [hc.1] at hp
      refine ⟨hp.1, ?_⟩
      have h3 := hp.2
      rw [hp.1] at h3
      by_contra hlt
      exact h3 ⟨by omega, by omega⟩
    | Get key =>
      simp only [step, Res.ok.injEq] at h2
      subst h2
      have hf := Get_frame c key
      exact ⟨hf.1.trans hc.1, by rw [hf.2.1]; exact hc.2⟩
    | RemoveOldst => simp [Op.isAddGet] at hop

/-! ### The structural invariant -/

theorem id_inj {ll : List (Element V)} (hn : (ll.map (fun e => e.id)).Nodup)
    {a b : Element V} (ha : a ∈ ll) (hb : b ∈ ll) (hab : a.id = b.id) : a = b :=
  List.inj_on_of_nodup_map hn ha hb hab

theorem mem_filter_id {ll : List (Element V)} (hn : (ll.map (fun e => e.id)).Nodup)
    {e : Element V} (he : e ∈ ll) (x : Element V) :
    x ∈ ll.filter (fun y => y.id != e.id) ↔ x ∈ ll ∧ x ≠ e := by
  simp only [List.mem_filter, bne_iff_ne, ne_eq]
  constructor
  · rintro ⟨hx, hid⟩
    exact ⟨hx, fun h => hid (by rw [h])⟩
  · rintro ⟨hx, hne⟩
    exact ⟨hx, fun h => hne (id_inj hn hx he h)⟩

theorem MoveToFront_of_mem {ll : List (Element V)} {e : Element V} (he : e ∈ ll) :
    MoveToFront ll e = e :: ll.filter (fun x => x.id != e.id) := by
  unfold MoveToFront
  have : ll.any (fun x => x.id == e.id) = true := by
    rw [List.any_eq_true]
    exact ⟨e, he, by simp⟩
  simp [this]

theorem nodup_filter_ids (ll : List (Element V)) (p : Element V → Bool)
    (hn : (ll.map (fun e => e.id)).Nodup) : ((ll.filter p).map (fun e => e.id)).Nodup :=
  List.Nodup.sublist (List.Sublist.map _ (List.filter_sublist ll)) hn

theorem Inv_NewCache (maxBytes : Int) (onEvicted : Bool) :
    Inv (NewCache maxBytes onEvicted : Cache V) := by
  refine ⟨by simp [NewCache], by simp [NewCache], ?_⟩
  intro k e
  simp [NewCache, GoMap.get]

theorem Inv_moveToFront {c : Cache V} (hI : Inv c) {key : String} {data : Element V}
    (hg : GoMap.get c.cache key = some data) (nb : Int) :
    Inv { c with ll := MoveToFront c.ll data, nbytes := nb } := by
  have hmem : data ∈ c.ll := ((hI.index key data).1 hg).1
  have hmf := MoveToFront_of_mem hmem
  refine ⟨?_, ?_, ?_⟩
  · show ((MoveToFront c.ll data).map (fun e => e.id)).Nodup
    rw [hmf, List.map_cons, List.nodup_cons]
    refine ⟨?_, nodup_filter_ids _ _ hI.ids_nodup⟩
    simp only [List.mem_map, List.mem_filter, bne_iff_ne, ne_eq, not_exists, not_and]
    intro x hx hid
    exact hx.2 hid
  · intro e he
    have he2 : e ∈ MoveToFront c.ll data := he
    rw [hmf, List.mem_cons, mem_filter_id hI.ids_nodup hmem] at he2
    rcases he2 with rfl | ⟨h, _⟩
    · exact hI.ids_lt _ hmem
    · exact hI.ids_lt _ h
  · intro k e
    show GoMap.get c.cache k = some e ↔ (e ∈ MoveToFront c.ll data ∧ e.Value.key = k)
    rw [hI.index, hmf, List.mem_cons, mem_filter_id hI.ids_nodup hmem]
    constructor
    · rintro ⟨h1, h2⟩
      refine ⟨?_, h2⟩
      by_cases hed : e = data
      · exact Or.inl hed
      · exact Or.inr ⟨h1, hed⟩
    · rintro ⟨h1 | h1, h2⟩
      · exact ⟨h1 ▸ hmem, h2⟩
      · exact ⟨h1.1, h2⟩

theorem Inv_Get {c : Cache V} (hI : Inv c) (key : String) : Inv (c.Get key).2 := by
  unfold Cache.Get
  cases hg : GoMap.get c.cache key with
  | none => simpa [hg] using hI
  | some data =>
    simp only [hg]
    exact Inv_moveToFront hI hg c.nbytes

theorem Inv_pushFront {c : Cache V} (hI : Inv c) {key : String}
    (hg : GoMap.get c.cache key = none) (value : V) (nb : Int) :
    Inv { c with
      ll := { id := c.nextId, Value := { key := key, value := value } } :: c.ll
      nextId := c.nextId + 1
      cache := GoMap.set c.cache key { id := c.nextId, Value := { key := key, value := value } }
      nbytes := nb } := by
  refine ⟨?_, ?_, ?_⟩
  · simp only [List.map_cons, List.nodup_cons]
    refine ⟨?_, hI.ids_nodup⟩
    simp only [List.mem_map, not_exists, not_and]
    intro x hx hid
    have := hI.ids_lt x hx
    omega
  · intro e he
    simp only [List.mem_cons] at he
    rcases he with rfl | h
    · simp
    · have := hI.ids_lt e h
      show e.id < c.nextId + 1
      omega
  · intro k e
    simp only [GoMap.get_set, List.mem_cons]
    by_cases hk : k = key
    · subst hk
      simp only [if_true, Option.some.injEq]
      constructor
      · intro h; subst h; exact ⟨Or.inl rfl, rfl⟩
      · rintro ⟨h1 | h1, h2⟩
        · exact h1.symm
        · have := (hI.index k e).2 ⟨h1, h2⟩
          rw [hg] at this
          cases this
    · simp only [hk, if_false]
      rw [hI.index]
      constructor
      · rintro ⟨h1, h2⟩; exact ⟨Or.inr h1, h2⟩
      · rintro ⟨h1 | h1, h2⟩
        · subst h1
          exact absurd h2.symm hk
        · exact ⟨h1, h2⟩

theorem Inv_RemoveOldst [Value V] {c c1 : Cache V} (hI : Inv c)
    (h : c.RemoveOldst = .ok c1) : Inv c1 := by
  unfold Cache.RemoveOldst at h
  cases hl : c.ll.getLast? with
  | none => simp [hl] at h
  | some data =>
    simp only [hl, Res.ok.injEq] at h
    subst h
    have hmem : data ∈ c.ll := List.mem_of_getLast?_eq_some hl
    refine ⟨nodup_filter_ids _ _ hI.ids_nodup, ?_, ?_⟩
    · intro e he
      have he2 : e ∈ Remove c.ll data := he
      unfold Remove at he2
      exact hI.ids_lt e (List.mem_of_mem_filter he2)
    · intro k e
      show GoMap.get (GoMap.delete c.cache data.Value.key) k = some e ↔
        (e ∈ Remove c.ll data ∧ e.Value.key = k)
      unfold Remove
      rw [GoMap.get_delete, mem_filter_id hI.ids_nodup hmem]
      by_cases hk : k = data.Value.key
      · subst hk
        simp only [if_true]
        constructor
        · intro h; cases h
        · rintro ⟨⟨h1, h2⟩, h3⟩
          have h4 := (hI.index _ e).2 ⟨h1, h3⟩
          have h5 := (hI.index _ data).2 ⟨hmem, rfl⟩
          rw [h4] at h5
          exact absurd (Option.some.inj h5) h2
      · simp only [hk, if_false]
        rw [hI.index]
        constructor
        · rintro ⟨h1, h2⟩
          refine ⟨⟨h1, ?_⟩, h2⟩
          intro hed
          subst hed
          exact hk h2.symm
        · rintro ⟨⟨h1, _⟩, h3⟩
          exact ⟨h1, h3⟩

theorem Inv_evictLoop [Value V] (n : Nat) {c c1 : Cache V} (hI : Inv c)
    (h : Cache.evictLoop n c = .ok c1) : Inv c1 := by
  induction n generalizing c with
  | zero =>
    unfold Cache.evictLoop at h
    split at h
    · cases h
    · cases h; exact hI
  | succ n ih =>
    unfold Cache.evictLoop at h
    split at h
    · obtain ⟨c2, h2, h3⟩ := Res.bind_eq_ok h
      exact ih (Inv_RemoveOldst hI h2) h3
    · cases h; exact hI

theorem Inv_Add [Value V] {c c1 : Cache V} (hI : Inv c) {key : String} {value : V}
    (h : c.Add key value = .ok c1) : Inv c1 := by
  unfold Cache.Add at h
  cases hg : GoMap.get c.cache key with
  | none =>
    simp only [hg] at h
    exact Inv_evictLoop _ (Inv_pushFront hI hg value _) h
  | some data =>
    simp only [hg] at h
    exact Inv_evictLoop _ (Inv_moveToFront hI hg _) h

theorem Inv_step [Value V] {c c1 : Cache V} (hI : Inv c) (op : Op V)
    (h : step c op = .ok c1) : Inv c1 := by
  cases op with
  | Add key value => exact Inv_Add hI h
  | Get key =>
    simp only [step, Res.ok.injEq] at h
    subst h; exact Inv_Get hI key
  | RemoveOldst => exact Inv_RemoveOldst hI h

theorem Inv_run [Value V] (ops : List (Op V)) {c c1 : Cache V} (hI : Inv c)
    (h : run c ops = .ok c1) : Inv c1 := by
  induction ops generalizing c with
  | nil =>
    simp only [run, Res.ok.injEq] at h
    subst h; exact hI
  | cons op ops ih =>
    simp only [run] at h
    obtain ⟨c2, h2, h3⟩ := Res.bind_eq_ok h
    exact ih (Inv_step hI op h2) h3

/-! ### Recency order -/

theorem RemoveOldst_ll [Value V] {c c1 : Cache V} (hI : Inv c)
    (h : c.RemoveOldst = .ok c1) :
    ∃ data, c.ll = c1.ll ++ [data] ∧ c1.cache = GoMap.delete c.cache data.Value.key ∧
      c1.nbytes = wrap64 (wrap64 (c.nbytes - wrap64 (strLen data.Value.key))
                  - wrap64 (Value.Len data.Value.value)) ∧
      c1.nextId = c.nextId := by
  unfold Cache.RemoveOldst at h
  cases hl : c.ll.getLast? with
  | none => simp [hl] at h
  | some data =>
    simp only [hl, Res.ok.injEq] at h
    subst h
    refine ⟨data, ?_, rfl, rfl, rfl⟩
    show c.ll = Remove c.ll data ++ [data]
    obtain ⟨init, hinit⟩ : ∃ init, c.ll = init ++ [data] := by
      rw [List.getLast?_eq_some_iff] at hl
      exact hl
    have hn := hI.ids_nodup
    rw [hinit] at hn ⊢
    unfold Remove
    rw [List.filter_append]
    have h1 : init.filter (fun x => x.id != data.id) = init := by
      rw [List.filter_eq_self]
      intro a ha
      simp only [bne_iff_ne, ne_eq]
      intro hid
      rw [List.map_append, List.nodup_append] at hn
      exact hn.2.2 (List.mem_map.2 ⟨a, ha, rfl⟩) (by simp [hid])
    rw [h1]
    simp

theorem evictLoop_ll [Value V] (n : Nat) {c c1 : Cache V} (hI : Inv c)
    (h : Cache.evictLoop n c = .ok c1) : ∃ rest, c.ll = c1.ll ++ rest := by
  induction n generalizing c with
  | zero =>
    unfold Cache.evictLoop at h
    split at h
    · cases h
    · cases h; exact ⟨[], by simp⟩
  | succ n ih =>
    unfold Cache.evictLoop at h
    split at h
    · obtain ⟨c2, h2, h3⟩ := Res.bind_eq_ok h
      obtain ⟨data, hd, _⟩ := RemoveOldst_ll hI h2
      obtain ⟨rest, hr⟩ := ih (Inv_RemoveOldst hI h2) h3
      exact ⟨rest ++ [data], by rw [hd, hr, List.append_assoc]⟩
    · cases h; exact ⟨[], by simp⟩

theorem key_ne_of_ne {c : Cache V} (hI : Inv c) {a b : Element V} (ha : a ∈ c.ll)
    (hb : b ∈ c.ll) (hab : a ≠ b) : a.Value.key ≠ b.Value.key := by
  intro hk
  have h1 := (hI.index _ a).2 ⟨ha, rfl⟩
  have h2 := (hI.index _ b).2 ⟨hb, hk.symm⟩
  rw [h1] at h2
  exact hab (Option.some.inj h2)

theorem Ordered_touch {c : Cache V} (hI : Inv c) {stamp : String → Nat} {now : Nat}
    (ho : Ordered stamp c.ll) (hb : ∀ k, stamp k ≤ now) {key : String} {data : Element V}
    (hg : GoMap.get c.cache key = some data) :
    Ordered (fun x => if x = key then now + 1 else stamp x) (MoveToFront c.ll data) := by
  obtain ⟨hmem, hkey⟩ := (hI.index key data).1 hg
  rw [MoveToFront_of_mem hmem]
  unfold Ordered
  have hne : ∀ x ∈ c.ll.filter (fun x => x.id != data.id), x.Value.key ≠ key := by
    intro x hx
    rw [mem_filter_id hI.ids_nodup hmem] at hx
    rw [← hkey]
    exact key_ne_of_ne hI hx.1 hmem hx.2
  rw [List.pairwise_cons]
  constructor
  · intro x hx
    have := hb x.Value.key
    simp only [hne x hx, if_false, hkey, if_true]
    omega
  · have hsub : List.Pairwise (fun a b => stamp b.Value.key < stamp a.Value.key)
        (c.ll.filter (fun x => x.id != data.id)) :=
      List.Pairwise.sublist (List.filter_sublist c.ll) ho
    refine List.Pairwise.imp_of_mem ?_ hsub
    intro a b ha hb2 hlt
    simp only [hne a ha, hne b hb2, if_false]
    exact hlt

theorem Ordered_push {c : Cache V} (hI : Inv c) {stamp : String → Nat} {now : Nat}
    (ho : Ordered stamp c.ll) (hb : ∀ k, stamp k ≤ now) {key : String}
    (hg : GoMap.get c.cache key = none) (e : Element V) (he : e.Value.key = key) :
    Ordered (fun x => if x = key then now + 1 else stamp x) (e :: c.ll) := by
  unfold Ordered
  have hne : ∀ x ∈ c.ll, x.Value.key ≠ key := by
    intro x hx hk
    have := (hI.index key x).2 ⟨hx, hk⟩
    rw [hg] at this
    cases this
  rw [List.pairwise_cons]
  constructor
  · intro x hx
    have := hb x.Value.key
    simp only [hne x hx, if_false, he, if_true]
    omega
  · refine List.Pairwise.imp_of_mem ?_ ho
    intro a b ha hb2 hlt
    simp only [hne a ha, hne b hb2, if_false]
    exact hlt

theorem Ordered_evictLoop [Value V] (n : Nat) {c c1 : Cache V} (hI : Inv c)
    {stamp : String → Nat} (ho : Ordered stamp c.ll)
    (h : Cache.evictLoop n c = .ok c1) : Ordered stamp c1.ll := by
  obtain ⟨rest, hr⟩ := evictLoop_ll n hI h
  unfold Ordered at ho ⊢
  rw [hr] at ho
  exact (List.pairwise_append.1 ho).1

theorem stepT_eq_ok [Value V] {s s2 : Clocked V} {op : Op V} (h : stepT s op = .ok s2) :
    ∃ c1, step s.store op = .ok c1 ∧ s2.store = c1 ∧ s2.now = s.now + 1 ∧
      s2.stamp = (match touches s.store op with
        | some k => fun x => if x = k then s.now + 1 else s.stamp x
        | none => s.stamp) := by
  unfold stepT at h
  obtain ⟨c1, h1, h2⟩ := Res.bind_eq_ok h
  simp only [Res.ok.injEq] at h2
  subst h2
  refine ⟨c1, h1, rfl, rfl, ?_⟩
  cases touches s.store op with
  | none => rfl
  | some k =>
    funext x
    simp only [Clocked.stamp, GoMap.get_set]
    split <;> rfl

theorem TInv_stepT [Value V] {s s2 : Clocked V} (hT : TInv s) (op : Op V)
    (h : stepT s op = .ok s2) : TInv s2 := by
  obtain ⟨hI, ho, hb⟩ := hT
  obtain ⟨c1, h1, hs, hn, hst⟩ := stepT_eq_ok h
  refine ⟨by rw [hs]; exact Inv_step hI op h1, ?_, ?_⟩
  · rw [hs, hst]
    cases op with
    | Add key value =>
      simp only [touches]
      simp only [step] at h1
      unfold Cache.Add at h1
      cases hg : GoMap.get s.store.cache key with
      | none =>
        simp only [hg] at h1
        exact Ordered_evictLoop _ (Inv_pushFront hI hg value _)
          (Ordered_push hI ho hb hg _ rfl) h1
      | some data =>
        simp only [hg] at h1
        exact Ordered_evictLoop _ (Inv_moveToFront hI hg _) (Ordered_touch hI ho hb hg) h1
    | Get key =>
      simp only [step, Res.ok.injEq] at h1
      subst h1
      rcases hg : GoMap.get s.store.cache key with _ | data
      · simp only [touches, Cache.has, Cache.Get, hg]
        simpa using ho
      · simp only [touches, Cache.has, Cache.Get, hg, Option.isSome_some, if_true]
        exact Ordered_touch hI ho hb hg
    | RemoveOldst =>
      simp only [touches]
      simp only [step] at h1
      obtain ⟨data, hd, _⟩ := RemoveOldst_ll hI h1
      unfold Ordered at ho ⊢
      rw [hd] at ho
      exact (List.pairwise_append.1 ho).1
  · intro k
    rw [hst, hn]
    have := hb k
    cases touches s.store op with
    | none => simp only; omega
    | some k2 =>
      simp only
      split <;> omega

theorem TInv_init (maxBytes : Int) (onEvicted : Bool) :
    TInv (Clocked.init maxBytes onEvicted : Clocked V) := by
  refine ⟨Inv_NewCache _ _, ?_, ?_⟩
  · simp [Clocked.init, NewCache, Ordered]
  · intro k; simp [Clocked.init, Clocked.stamp, GoMap.get]

theorem TInv_runT [Value V] (ops : List (Op V)) {s s2 : Clocked V} (hT : TInv s)
    (h : runT s ops = .ok s2) : TInv s2 := by
  induction ops generalizing s with
  | nil =>
    simp only [runT, Res.ok.injEq] at h
    subst h; exact hT
  | cons op ops ih =>
    simp only [runT] at h
    obtain ⟨s1, h1, h2⟩ := Res.bind_eq_ok h
    exact ih (TInv_stepT hT op h1) h2

/-! ### Termination of the eviction loop -/

theorem RemoveOldst_length [Value V] {c c1 : Cache V} (h : c.RemoveOldst = .ok c1) :
    c1.ll.length < c.ll.length := by
  unfold Cache.RemoveOldst at h
  cases hl : c.ll.getLast? with
  | none => simp [hl] at h
  | some data =>
    simp only [hl, Res.ok.injEq] at h
    subst h
    show (Remove c.ll data).length < c.ll.length
    unfold Remove
    rw [List.length_filter_lt_length_iff_exists]
    exact ⟨data, List.mem_of_getLast?_eq_some hl, by simp⟩

theorem evictLoop_ne_outOfFuel [Value V] (n : Nat) (c : Cache V) (hn : c.ll.length < n) :
    Cache.evictLoop n c ≠ .outOfFuel := by
  induction n generalizing c with
  | zero => omega
  | succ n ih =>
    unfold Cache.evictLoop
    split
    · cases h : c.RemoveOldst with
      | ok c2 =>
        simp only [Res.bind]
        have := RemoveOldst_length h
        exact ih c2 (by omega)
      | panic => simp [Res.bind]
      | blocked => simp [Res.bind]
      | outOfFuel =>
        unfold Cache.RemoveOldst at h
        cases hl : c.ll.getLast? <;> simp [hl] at h
    · simp

theorem Add_ne_outOfFuel [Value V] (c : Cache V) (key : String) (value : V) :
    c.Add key value ≠ .outOfFuel := by
  unfold Cache.Add
  exact evictLoop_ne_outOfFuel _ _ (by omega)

end lru

namespace lru

variable {V : Type}

/-! ### Exact accounting, when no present key is re-added -/

theorem MoveToFront_perm {ll : List (Element V)} (hn : (ll.map (fun e => e.id)).Nodup)
    {e : Element V} (he : e ∈ ll) : (MoveToFront ll e).Perm ll := by
  rw [MoveToFront_of_mem he]
  induction ll with
  | nil => cases he
  | cons a t ih =>
    rw [List.map_cons, List.nodup_cons] at hn
    by_cases hae : a = e
    · subst hae
      have : (a :: t).filter (fun x => x.id != a.id) = t := by
        rw [List.filter_cons]
        simp only [bne_self_eq_false, Bool.false_eq_true, if_false]
        rw [List.filter_eq_self]
        intro x hx
        simp only [bne_iff_ne, ne_eq]
        intro hid
        exact hn.1 (List.mem_map.2 ⟨x, hx, hid⟩)
      rw [this]
    · have het : e ∈ t := by
        rcases List.mem_cons.1 he with h | h
        · exact absurd h.symm hae
        · exact h
      have hid : a.id ≠ e.id := by
        intro hid
        exact hn.1 (List.mem_map.2 ⟨e, het, hid.symm⟩)
      rw [List.filter_cons]
      simp only [bne_iff_ne, ne_eq, hid, not_false_eq_true, if_true]
      exact (List.Perm.swap a e _).trans (List.Perm.cons a (ih hn.2 het))

theorem Acct_NewCache [Value V] (maxBytes : Int) (onEvicted : Bool) :
    Acct (NewCache maxBytes onEvicted : Cache V) := by
  simp [Acct, NewCache, wrap64_zero]

theorem Acct_Get [Value V] {c : Cache V} (hI : Inv c) (hA : Acct c) (key : String) :
    Acct (c.Get key).2 := by
  unfold Cache.Get
  cases hg : GoMap.get c.cache key with
  | none => simpa [hg] using hA
  | some data =>
    simp only [hg]
    unfold Acct at hA ⊢
    have hmem : data ∈ c.ll := ((hI.index key data).1 hg).1
    have hp := MoveToFront_perm hI.ids_nodup hmem
    show c.nbytes = wrap64 (((MoveToFront c.ll data).map charge).sum)
    rw [(hp.map charge).sum_eq]
    exact hA

theorem Acct_RemoveOldst [Value V] {c c1 : Cache V} (hI : Inv c) (hA : Acct c)
    (h : c.RemoveOldst = .ok c1) : Acct c1 := by
  obtain ⟨data, hll, _, hnb, _⟩ := RemoveOldst_ll hI h
  unfold Acct at hA ⊢
  rw [hnb, hA, hll, List.map_append, List.sum_append]
  simp only [List.map_cons, List.map_nil, List.sum_cons, List.sum_nil, add_zero, charge]
  generalize (c1.ll.map charge).sum = S
  generalize strLen data.Value.key = a
  generalize Value.Len data.Value.value = b
  unfold wrap64
  omega

theorem Acct_pushFront [Value V] {c : Cache V} (hA : Acct c) (key : String) (value : V)
    (cm : GoMap String (Element V)) (e : Element V)
    (he : e.Value = { key := key, value := value }) :
    Acct { c with
      ll := e :: c.ll
      nextId := c.nextId + 1
      cache := cm
      nbytes := wrap64 (c.nbytes + wrap64 (wrap64 (strLen key) + wrap64 (Value.Len value))) } := by
  unfold Acct at hA ⊢
  simp only [List.map_cons, List.sum_cons, charge, he]
  rw [hA]
  generalize (c.ll.map charge).sum = S
  generalize strLen key = a
  generalize Value.Len value = b
  unfold wrap64
  omega

/-- With exact accounting and a budget that is not negative, the eviction loop returns:
while the charge exceeds the budget the list is not empty. -/
theorem evictLoop_total [Value V] (n : Nat) (c : Cache V) (hI : Inv c) (hA : Acct c)
    (hM : 0 ≤ c.maxBytes) (hn : c.ll.length < n) :
    ∃ c1, Cache.evictLoop n c = .ok c1 ∧ Inv c1 ∧ Acct c1 ∧ c1.maxBytes = c.maxBytes := by
  induction n generalizing c with
  | zero => omega
  | succ n ih =>
    unfold Cache.evictLoop
    by_cases hcond : c.maxBytes ≠ 0 ∧ c.maxBytes < c.nbytes
    · simp only [hcond, ne_eq, not_false_eq_true, and_self, if_true]
      cases hr : c.RemoveOldst with
      | ok c2 =>
        simp only [Res.bind]
        have hlen := RemoveOldst_length hr
        have hmb := RemoveOldst_maxBytes hr
        obtain ⟨c1, h1, h2, h3, h4⟩ := ih c2 (Inv_RemoveOldst hI hr) (Acct_RemoveOldst hI hA hr)
          (by rw [hmb]; exact hM) (by omega)
        exact ⟨c1, h1, h2, h3, h4.trans hmb⟩
      | panic =>
        exfalso
        unfold Cache.RemoveOldst at hr
        cases hl : c.ll.getLast? with
        | some data => simp [hl] at hr
        | none =>
          rw [List.getLast?_eq_none_iff] at hl
          unfold Acct at hA
          rw [hl] at hA
          simp only [List.map_nil, List.sum_nil, wrap64_zero] at hA
          omega
      | blocked =>
        unfold Cache.RemoveOldst at hr
        cases hl : c.ll.getLast? <;> simp [hl] at hr
      | outOfFuel =>
        unfold Cache.RemoveOldst at hr
        cases hl : c.ll.getLast? <;> simp [hl] at hr
    · simp only [hcond, if_false]
      exact ⟨c, rfl, hI, hA, rfl⟩

/-- The loop keeps the front element when its charge fits the budget (or the store is
unbounded). -/
theorem evictLoop_head [Value V] (n : Nat) (c c1 : Cache V) (hI : Inv c) (hA : Acct c)
    (e : Element V) (rest : List (Element V)) (hll : c.ll = e :: rest)
    (h0 : 0 ≤ charge e) (hfit : c.maxBytes = 0 ∨ charge e ≤ c.maxBytes)
    (h : Cache.evictLoop n c = .ok c1) : ∃ rest1, c1.ll = e :: rest1 := by
  induction n generalizing c rest with
  | zero =>
    unfold Cache.evictLoop at h
    split at h
    · cases h
    · cases h; exact ⟨rest, hll⟩
  | succ n ih =>
    unfold Cache.evictLoop at h
    split at h
    · rename_i hcond
      obtain ⟨c2, h2, h3⟩ := Res.bind_eq_ok h
      obtain ⟨data, hd, _⟩ := RemoveOldst_ll hI h2
      have hmb := RemoveOldst_maxBytes h2
      cases hc2 : c2.ll with
      | nil =>
        exfalso
        rw [hc2, hll] at hd
        simp only [List.nil_append, List.cons.injEq] at hd
        unfold Acct at hA
        rw [hll, hd.2] at hA
        simp only [List.map_cons, List.map_nil, List.sum_cons, List.sum_nil, add_zero] at hA
        have := wrap64_le_self h0
        rcases hfit with hf | hf
        · exact hcond.1 hf
        · omega
      | cons x t =>
        rw [hc2, hll] at hd
        simp only [List.cons_append, List.cons.injEq] at hd
        have hx : c2.ll = e :: t := by rw [hc2, hd.1]
        exact ih c2 (Inv_RemoveOldst hI h2) (Acct_RemoveOldst hI hA h2) t hx
          (by rw [hmb]; exact hfit) h3
    · cases h; exact ⟨rest, hll⟩

/-- Insertion of an absent key into a store with exact accounting and a budget that is
not negative: `Add` returns, and the invariants hold afterwards. -/
theorem Add_new_total [Value V] (c : Cache V) (hI : Inv c) (hA : Acct c)
    (hM : 0 ≤ c.maxBytes) (key : String) (value : V)
    (hg : GoMap.get c.cache key = none) :
    ∃ c1, c.Add key value = .ok c1 ∧ Inv c1 ∧ Acct c1 ∧ c1.maxBytes = c.maxBytes := by
  unfold Cache.Add
  simp only [hg]
  exact evictLoop_total _ _ (Inv_pushFront hI hg value _)
    (Acct_pushFront hA key value _ _ rfl) hM (by simp)

/-- Insertion of an absent key whose charge fits the budget: the key is present
afterwards, bound to the inserted value. -/
theorem Add_new_keeps [Value V] (c c1 : Cache V) (hI : Inv c) (hA : Acct c)
    (key : String) (value : V) (hg : GoMap.get c.cache key = none)
    (h0 : 0 ≤ Value.Len value)
    (hfit : c.maxBytes = 0 ∨ strLen key + Value.Len value ≤ c.maxBytes)
    (h : c.Add key value = .ok c1) :
    GoMap.get c1.cache key = some { id := c.nextId, Value := { key := key, value := value } } := by
  have hI1 := Inv_Add hI h
  unfold Cache.Add at h
  simp only [hg] at h
  have hlen : 0 ≤ strLen key := by simp [strLen]
  obtain ⟨rest1, hr⟩ := evictLoop_head _ _ c1 (Inv_pushFront hI hg value _)
    (Acct_pushFront hA key value _ _ rfl)
    { id := c.nextId, Value := { key := key, value := value } } c.ll rfl
    (by simp only [charge]; omega) (by simpa [charge] using hfit) h
  exact (hI1.index key _).2 ⟨by rw [hr]; exact List.mem_cons_self _ _, rfl⟩

end lru

namespace consistenthash

/-! ### Binary search -/

theorem searchLoop_spec (f : Nat → Bool) (n : Nat)
    (mono : ∀ a b, a ≤ b → b < n → f a = true → f b = true) :
    ∀ fuel i j, j - i ≤ fuel → i ≤ j → j ≤ n → (∀ k, k < i → f k = false) →
      (∀ k, j ≤ k → k < n → f k = true) →
      i ≤ searchLoop f fuel i j ∧ searchLoop f fuel i j ≤ j ∧
      (∀ k, k < searchLoop f fuel i j → f k = false) ∧
      (∀ k, searchLoop f fuel i j ≤ k → k < n → f k = true) := by
  intro fuel
  induction fuel with
  | zero =>
    intro i j hf hij hjn hlo hhi
    have : i = j := by omega
    subst this
    simp only [searchLoop]
    exact ⟨le_refl _, le_refl _, hlo, hhi⟩
  | succ fuel ih =>
    intro i j hf hij hjn hlo hhi
    unfold searchLoop
    by_cases hlt : i < j
    · simp only [hlt, if_true]
      have hh1 : i ≤ (i + j) / 2 := by omega
      have hh2 : (i + j) / 2 < j := by omega
      cases hfh : f ((i + j) / 2) with
      | false =>
        simp only [Bool.not_false, if_true]
        have := ih ((i + j) / 2 + 1) j (by omega) (by omega) hjn (by
          intro k hk
          cases hfk : f k with
          | false => rfl
          | true =>
            have := mono k ((i + j) / 2) (by omega) (by omega) hfk
            rw [hfh] at this
            cases this) hhi
        exact ⟨by omega, this.2.1, this.2.2⟩
      | true =>
        simp only [Bool.not_true, Bool.false_eq_true, if_false]
        have := ih i ((i + j) / 2) (by omega) hh1 (by omega) hlo (by
          intro k hk hkn
          exact mono _ k hk hkn hfh)
        exact ⟨this.1, by omega, this.2.2⟩
    · have : i = j := by omega
      subst this
      simp only [lt_irrefl, if_false]
      exact ⟨le_refl _, le_refl _, hlo, hhi⟩

theorem Search_spec (f : Nat → Bool) (n : Nat)
    (mono : ∀ a b, a ≤ b → b < n → f a = true → f b = true) :
    Search n f ≤ n ∧ (∀ k, k < Search n f → f k = false) ∧
      (∀ k, Search n f ≤ k → k < n → f k = true) := by
  have := searchLoop_spec f n mono n 0 n (by omega) (by omega) (le_refl _)
    (by intro k hk; omega) (by intro k hk hkn; omega)
  exact ⟨this.2.1, this.2.2⟩

theorem sorted_getD_le {l : List Int} (hs : l.Sorted (fun a b => a ≤ b)) {i j : Nat}
    (hij : i ≤ j) (hj : j < l.length) : l.getD i 0 ≤ l.getD j 0 := by
  have hi : i < l.length := by omega
  rw [List.getD_eq_getElem l 0 hi, List.getD_eq_getElem l 0 hj]
  rcases Nat.eq_or_lt_of_le hij with h | h
  · subst h; exact le_refl _
  · exact List.pairwise_iff_get.1 hs ⟨i, hi⟩ ⟨j, hj⟩ h

theorem getD_mem {l : List Int} {i : Nat} (hi : i < l.length) : l.getD i 0 ∈ l := by
  rw [List.getD_eq_getElem l 0 hi]
  exact List.getElem_mem hi

/-- On a non-empty ring with sorted points, `SelectNode` looks up the index at the least
point at or above the hash of the key, or at the first (least) point when there is none. -/
theorem SelectNode_sorted (m : Map) (key : String)
    (hs : m.keys.Sorted (fun a b => a ≤ b)) (hne : m.keys ≠ []) :
    ∃ p ∈ m.keys, m.SelectNode key = (GoMap.get m.hashMap p, none) ∧
      ((∃ q ∈ m.keys, m.hashInt key ≤ q) →
        m.hashInt key ≤ p ∧ ∀ q ∈ m.keys, m.hashInt key ≤ q → p ≤ q) ∧
      ((∀ q ∈ m.keys, q < m.hashInt key) →
        m.keys.head? = some p ∧ ∀ q ∈ m.keys, p ≤ q) := by
  have hlen : 0 < m.keys.length := List.length_pos.2 hne
  have hlen0 : ¬ m.keys.length = 0 := by omega
  have mono : ∀ a b, a ≤ b → b < m.keys.length →
      (fun i => decide (m.keys.getD i 0 ≥ m.hashInt key)) a = true →
      (fun i => decide (m.keys.getD i 0 ≥ m.hashInt key)) b = true := by
    intro a b hab hb ha
    simp only [ge_iff_le, decide_eq_true_eq] at ha ⊢
    exact le_trans ha (sorted_getD_le hs hab hb)
  obtain ⟨idx, hdef, h1, h2, h3⟩ : ∃ idx : Nat,
      idx = Search m.keys.length (fun i => decide (m.keys.getD i 0 ≥ m.hashInt key)) ∧
      idx ≤ m.keys.length ∧ (∀ k, k < idx → m.keys.getD k 0 < m.hashInt key) ∧
      (∀ k, idx ≤ k → k < m.keys.length → m.hashInt key ≤ m.keys.getD k 0) := by
    obtain ⟨h1, h2, h3⟩ := Search_spec _ _ mono
    refine ⟨_, rfl, h1, ?_, ?_⟩
    · intro k hk
      simpa using h2 k hk
    · intro k hk hkn
      simpa using h3 k hk hkn
  have hmod : idx % m.keys.length < m.keys.length := Nat.mod_lt _ hlen
  have hsel : m.SelectNode key =
      (GoMap.get m.hashMap (m.keys.getD (idx % m.keys.length) 0), none) := by
    simp only [Map.SelectNode, hlen0, if_false, hdef]
  refine ⟨_, getD_mem hmod, hsel, ?_, ?_⟩
  · rintro ⟨q, hq, hhq⟩
    obtain ⟨k, hk, rfl⟩ := List.getElem_of_mem hq
    rw [← List.getD_eq_getElem m.keys 0 hk] at hhq
    have hidx : idx ≤ k := by
      by_contra hcon
      have := h2 k (by omega)
      omega
    have hlt : idx < m.keys.length := by omega
    rw [Nat.mod_eq_of_lt hlt]
    refine ⟨h3 _ (le_refl _) hlt, ?_⟩
    intro q2 hq2 hh2
    obtain ⟨k2, hk2, rfl⟩ := List.getElem_of_mem hq2
    rw [← List.getD_eq_getElem m.keys 0 hk2] at hh2 ⊢
    have hidx2 : idx ≤ k2 := by
      by_contra hcon
      have := h2 k2 (by omega)
      omega
    exact sorted_getD_le hs hidx2 hk2
  · intro hall
    have hidx : idx = m.keys.length := by
      by_contra hcon
      have hlt : idx < m.keys.length := by omega
      have := h3 _ (le_refl _) hlt
      have := hall _ (getD_mem hlt)
      omega
    rw [hidx, Nat.mod_self]
    constructor
    · rw [List.getD_eq_getElem m.keys 0 hlen, List.head?_eq_getElem?]
      exact List.getElem?_eq_getElem hlen
    · intro q hq
      obtain ⟨k, hk, rfl⟩ := List.getElem_of_mem hq
      rw [← List.getD_eq_getElem m.keys 0 hk]
      exact sorted_getD_le hs (Nat.zero_le k) hk

/-! ### The loops of `Add` -/

theorem addPoints_nil (m : Map) : m.addPoints [] = m := rfl

theorem addPoints_cons (m : Map) (p : Int × Node) (pts : List (Int × Node)) :
    m.addPoints (p :: pts) =
      Map.addPoints { m with keys := m.keys ++ [p.1], hashMap := GoMap.set m.hashMap p.1 p.2 }
        pts := rfl

theorem addPoints_append (m : Map) (ps qs : List (Int × Node)) :
    m.addPoints (ps ++ qs) = (m.addPoints ps).addPoints qs := by
  simp [Map.addPoints, List.foldl_append]

theorem addPoints_frame (m : Map) (pts : List (Int × Node)) :
    (m.addPoints pts).hash = m.hash ∧ (m.addPoints pts).replicas = m.replicas ∧
    (m.addPoints pts).keys = m.keys ++ pts.map Prod.fst := by
  induction pts generalizing m with
  | nil => simp [addPoints_nil]
  | cons p pts ih =>
    rw [addPoints_cons]
    obtain ⟨h1, h2, h3⟩ := ih { m with keys := m.keys ++ [p.1],
                                       hashMap := GoMap.set m.hashMap p.1 p.2 }
    refine ⟨h1, h2, ?_⟩
    rw [h3]
    simp

theorem lastBinding_nil (h : Int) : lastBinding [] h = none := rfl

theorem lastBinding_cons (p : Int × Node) (pts : List (Int × Node)) (h : Int) :
    lastBinding (p :: pts) h =
      match lastBinding pts h with
      | some n => some n
      | none => if p.1 = h then some p.2 else none := by
  unfold lastBinding
  rw [List.reverse_cons, List.find?_append]
  cases hf : pts.reverse.find? (fun p => decide (p.1 = h)) with
  | some q => simp
  | none =>
    by_cases hp : p.1 = h
    · simp [List.find?, hp]
    · simp [List.find?, hp]

theorem addPoints_get (m : Map) (pts : List (Int × Node)) (h : Int) :
    GoMap.get (m.addPoints pts).hashMap h =
      match lastBinding pts h with
      | some n => some n
      | none => GoMap.get m.hashMap h := by
  induction pts generalizing m with
  | nil => simp [addPoints_nil, lastBinding_nil]
  | cons p pts ih =>
    rw [addPoints_cons, ih, lastBinding_cons]
    cases lastBinding pts h with
    | some n => rfl
    | none =>
      simp only [GoMap.get_set]
      by_cases hp : p.1 = h
      · simp [hp]
      · have : ¬ h = p.1 := fun e => hp e.symm
        simp [hp, this]

theorem lastBinding_isSome {pts : List (Int × Node)} {h : Int}
    (hm : h ∈ pts.map Prod.fst) : (lastBinding pts h).isSome = true := by
  unfold lastBinding
  obtain ⟨p, hp, rfl⟩ := List.mem_map.1 hm
  cases hf : pts.reverse.find? (fun q => decide (q.1 = p.1)) with
  | some q => rfl
  | none =>
    rw [List.find?_eq_none] at hf
    have := hf p (List.mem_reverse.2 hp)
    simp at this

theorem lastBinding_mem {pts : List (Int × Node)} {h : Int} {n : Node}
    (hb : lastBinding pts h = some n) : (h, n) ∈ pts := by
  unfold lastBinding at hb
  obtain ⟨p, hp, rfl⟩ := Option.map_eq_some.1 hb
  have h1 := List.mem_of_find?_eq_some hp
  have h2 := List.find?_some hp
  simp only [decide_eq_true_eq] at h2
  rw [List.mem_reverse] at h1
  rw [← h2]
  exact h1

theorem addNode_eq (m acc : Map) (node : Node) (hh : acc.hash = m.hash)
    (hr : acc.replicas = m.replicas) :
    acc.addNode node = acc.addPoints
      ((List.range m.replicas.toNat).map (fun i => (m.hashInt (node.Name ++ Itoa i), node))) := by
  unfold Map.addNode
  rw [hr]
  generalize List.range m.replicas.toNat = l
  induction l generalizing acc with
  | nil => rfl
  | cons i l ih =>
    rw [List.foldl_cons, List.map_cons, addPoints_cons]
    have : acc.addReplica node i =
        { acc with keys := acc.keys ++ [m.hashInt (node.Name ++ Itoa i)],
                   hashMap := GoMap.set acc.hashMap (m.hashInt (node.Name ++ Itoa i)) node } := by
      simp only [Map.addReplica, Map.hashInt, hh]
    rw [this]
    exact ih _ hh hr

theorem foldl_addNode_eq (m acc : Map) (nodes : List Node) (hh : acc.hash = m.hash)
    (hr : acc.replicas = m.replicas) :
    nodes.foldl Map.addNode acc = acc.addPoints (m.newPoints nodes) := by
  induction nodes generalizing acc with
  | nil => rfl
  | cons node nodes ih =>
    rw [List.foldl_cons, addNode_eq m acc node hh hr]
    have hf := addPoints_frame acc
      ((List.range m.replicas.toNat).map (fun i => (m.hashInt (node.Name ++ Itoa i), node)))
    rw [ih _ (hf.1.trans hh) (hf.2.1.trans hr)]
    simp only [Map.newPoints, List.flatMap_cons]
    rw [addPoints_append]

/-- What `Add` does, in one equation: the new points are appended pair by pair and the
point list is sorted. -/
theorem Add_eq (m : Map) (nodes : List Node) :
    m.Add nodes =
      { m.addPoints (m.newPoints nodes) with
        keys := (m.addPoints (m.newPoints nodes)).keys.insertionSort (fun a b => a ≤ b) } := by
  unfold Map.Add
  rw [foldl_addNode_eq m m nodes rfl rfl]

theorem Add_frame (m : Map) (nodes : List Node) :
    (m.Add nodes).hash = m.hash ∧ (m.Add nodes).replicas = m.replicas := by
  rw [Add_eq]
  exact ⟨(addPoints_frame m _).1, (addPoints_frame m _).2.1⟩

theorem Add_keys (m : Map) (nodes : List Node) :
    (m.Add nodes).keys.Sorted (fun a b => a ≤ b) ∧
    (m.Add nodes).keys.Perm (m.keys ++ (m.newPoints nodes).map Prod.fst) := by
  rw [Add_eq]
  refine ⟨List.sorted_insertionSort _ _, ?_⟩
  show ((m.addPoints (m.newPoints nodes)).keys.insertionSort (fun a b => a ≤ b)).Perm _
  rw [(addPoints_frame m _).2.2]
  exact List.perm_insertionSort _ _

theorem Add_get (m : Map) (nodes : List Node) (h : Int) :
    GoMap.get (m.Add nodes).hashMap h =
      match lastBinding (m.newPoints nodes) h with
      | some n => some n
      | none => GoMap.get m.hashMap h := by
  rw [Add_eq]
  exact addPoints_get m _ h

/-- Invariant of the ring: the points are sorted and each has an index entry. -/
theorem build_inv (replicas : Int) (fn : Option Hash) (batches : List (List Node)) :
    (build replicas fn batches).keys.Sorted (fun a b => a ≤ b) ∧
    ∀ p ∈ (build replicas fn batches).keys,
      (GoMap.get (build replicas fn batches).hashMap p).isSome = true := by
  unfold build
  generalize hm : NewMap replicas fn = m0
  have h0 : m0.keys.Sorted (fun a b => a ≤ b) ∧
      ∀ p ∈ m0.keys, (GoMap.get m0.hashMap p).isSome = true := by
    subst hm
    simp [NewMap]
  clear hm
  induction batches generalizing m0 with
  | nil => exact h0
  | cons nodes batches ih =>
    rw [List.foldl_cons]
    apply ih
    refine ⟨(Add_keys m0 nodes).1, ?_⟩
    intro p hp
    rw [Add_get]
    have hp2 := ((Add_keys m0 nodes).2.mem_iff).1 hp
    cases hb : lastBinding (m0.newPoints nodes) p with
    | some n => rfl
    | none =>
      rcases List.mem_append.1 hp2 with h | h
      · exact h0.2 p h
      · have := lastBinding_isSome h
        rw [hb] at this
        cases this

end consistenthash

/-! ### The group, one caller at a time -/

theorem Get_empty (g : Group) :
    g.Get "" = .ok ((ByteView.mk [], some "key is empty"), g) := by
  simp [Group.Get]

theorem cache_get_hit (c : cache) (l : lru.Cache ByteView) (key : String)
    (data : lru.Element ByteView) (hl : c.lru = some l)
    (hg : GoMap.get l.cache key = some data) :
    c.get key = ((data.Value.value, true),
      { c with lru := some { l with ll := lru.MoveToFront l.ll data } }) := by
  simp [cache.get, hl, lru.Cache.Get, hg]

theorem cache_get_miss (c : cache) (l : lru.Cache ByteView) (key : String)
    (hl : c.lru = some l) (hg : GoMap.get l.cache key = none) :
    c.get key = ((ByteView.mk [], false), c) := by
  cases c
  simp only at hl
  subst hl
  simp [cache.get, lru.Cache.Get, hg]

theorem Get_hit (g : Group) (l : lru.Cache ByteView) (key : String)
    (data : lru.Element ByteView) (hk : key ≠ "") (hl : g.mainCache.lru = some l)
    (hg : GoMap.get l.cache key = some data) :
    g.Get key = .ok ((data.Value.value, none),
      { g with mainCache :=
          { g.mainCache with lru := some { l with ll := lru.MoveToFront l.ll data } } }) := by
  simp [Group.Get, hk, cache_get_hit g.mainCache l key data hl hg]

theorem Get_miss (g : Group) (l : lru.Cache ByteView) (key : String) (hk : key ≠ "")
    (hp : g.peers = none) (hi : g.inflight key = none)
    (hl : g.mainCache.lru = some l) (hg : GoMap.get l.cache key = none) :
    g.Get key =
      if (g.getter key).2 ≠ none then
        .ok ((ByteView.mk [], (g.getter key).2), g.loaded key g.mainCache)
      else
        (l.Add key (ByteView.mk (g.getter key).1)).bind (fun l1 =>
          .ok ((ByteView.mk (g.getter key).1, none),
            g.loaded key { g.mainCache with lru := some l1 })) := by
  unfold Group.inflight at hi
  simp only [Group.Get, hk, if_false, cache_get_miss g.mainCache l key hl hg,
    Bool.false_eq_true, Group.load, Group.Do, hi, Group.loadFn, hp, Group.getLocally]
  by_cases he : (g.getter key).2 ≠ none
  · simp only [he, if_true, ne_eq, not_false_eq_true, Res.bind, Group.loaded, Option.map_some',
      hp]
  · simp only [he, if_false, ne_eq, cache.add, hl, cloneBytes, Group.loaded]
    cases l.Add key (ByteView.mk (g.getter key).1) <;> simp [Res.bind, hp]

theorem loaded_idle (g : Group) (key : String) (mc : cache)
    (hi : ∀ k, g.inflight k = none) : ∀ k, (g.loaded key mc).inflight k = none := by
  intro k
  have := hi k
  unfold Group.inflight at this ⊢
  simp only [Group.loaded, Option.getD_some, GoMap.get_delete, GoMap.get_set]
  split
  · rfl
  · exact this

theorem GInv_NewGroup (name : String) (cacheBytes : Int) (getter : Getter) (g : Group)
    (hb : 0 ≤ cacheBytes) (h : NewGroup name cacheBytes (some getter) = .ok g) :
    g.Inv ∧ g.mainCache.cacheBytes = cacheBytes := by
  simp only [NewGroup, Res.ok.injEq] at h
  subst h
  refine ⟨⟨rfl, ?_, ?_⟩, rfl⟩
  · intro k
    simp [Group.inflight, GoMap.get]
  · exact ⟨_, rfl, lru.Inv_NewCache _ _, lru.Acct_NewCache _ _, hb, rfl⟩

/-- A `Get` on a group that satisfies the invariant returns, and the invariant holds
afterwards. -/
theorem GInv_Get (g : Group) (key : String) (hI : g.Inv) :
    ∃ r, g.Get key = .ok r ∧ r.2.Inv ∧ r.2.mainCache.cacheBytes = g.mainCache.cacheBytes := by
  by_cases hk : key = ""
  · subst hk
    exact ⟨_, Get_empty g, hI, rfl⟩
  · obtain ⟨l, hl, hLI, hLA, hM, hMB⟩ := hI.store
    cases hg : GoMap.get l.cache key with
    | some data =>
      refine ⟨_, Get_hit g l key data hk hl hg, ⟨hI.no_peers, hI.idle, ?_⟩, rfl⟩
      refine ⟨_, rfl, lru.Inv_moveToFront hLI hg l.nbytes, ?_, hM, hMB⟩
      have := lru.Acct_Get hLI hLA key
      simpa [lru.Cache.Get, hg] using this
    | none =>
      rw [Get_miss g l key hk hI.no_peers (hI.idle key) hl hg]
      by_cases he : (g.getter key).2 ≠ none
      · rw [if_pos he]
        exact ⟨_, rfl, ⟨hI.no_peers, loaded_idle g key _ hI.idle, ⟨l, hl, hLI, hLA, hM, hMB⟩⟩, rfl⟩
      · rw [if_neg he]
        obtain ⟨l1, h1, h2, h3, h4⟩ :=
          lru.Add_new_total l hLI hLA hM key (ByteView.mk (g.getter key).1) hg
        rw [h1]
        exact ⟨_, rfl, ⟨hI.no_peers, loaded_idle g key _ hI.idle,
          ⟨l1, rfl, h2, h3, by rw [h4]; exact hM, h4.trans hMB⟩⟩, rfl⟩

theorem GInv_gets (keys : List String) (g g1 : Group) (hI : g.Inv)
    (h : g.gets keys = .ok g1) :
    g1.Inv ∧ g1.mainCache.cacheBytes = g.mainCache.cacheBytes := by
  induction keys generalizing g with
  | nil =>
    simp only [Group.gets, Res.ok.injEq] at h
    subst h; exact ⟨hI, rfl⟩
  | cons key keys ih =>
    simp only [Group.gets] at h
    obtain ⟨r, h1, h2⟩ := Res.bind_eq_ok h
    obtain ⟨r2, h3, h4, h5⟩ := GInv_Get g key hI
    rw [h3] at h1
    cases h1
    have := ih r.2 h4 h2
    exact ⟨this.1, this.2.trans h5⟩

theorem GInv_made (name : String) (cacheBytes : Int) (getter : Getter) (keys : List String)
    (g : Group) (hb : 0 ≤ cacheBytes) (h : Group.made name cacheBytes getter keys = .ok g) :
    g.Inv ∧ g.mainCache.cacheBytes = cacheBytes := by
  unfold Group.made at h
  obtain ⟨g0, h0, h1⟩ := Res.bind_eq_ok h
  obtain ⟨hI0, hc0⟩ := GInv_NewGroup name cacheBytes getter g0 hb h0
  have := GInv_gets keys g0 g hI0 h1
  exact ⟨this.1, this.2.trans hc0⟩

/-- A miss that the loader answers without error, on a group that satisfies the
invariant: the call returns the loaded bytes and records one loader call. -/
theorem Get_loads (g : Group) (key : String) (b : List UInt8) (hI : g.Inv)
    (hk : key ≠ "") (hmiss : g.cached key = false) (hload : g.getter key = (b, none)) :
    ∃ l l1, g.mainCache.lru = some l ∧ GoMap.get l.cache key = none ∧
      l.Add key (ByteView.mk b) = .ok l1 ∧ lru.Inv l ∧ lru.Acct l ∧
      l.maxBytes = g.mainCache.cacheBytes ∧
      g.Get key = .ok ((ByteView.mk b, none),
        g.loaded key { g.mainCache with lru := some l1 }) := by
  obtain ⟨l, hl, hLI, hLA, hM, hMB⟩ := hI.store
  have hg : GoMap.get l.cache key = none := by
    simp only [Group.cached, hl, lru.Cache.has] at hmiss
    cases h : GoMap.get l.cache key with
    | none => rfl
    | some d => simp [h] at hmiss
  obtain ⟨l1, h1, _⟩ := lru.Add_new_total l hLI hLA hM key (ByteView.mk b) hg
  refine ⟨l, l1, hl, hg, h1, hLI, hLA, hMB, ?_⟩
  rw [Get_miss g l key hk hI.no_peers (hI.idle key) hl hg]
  simp only [hload, ne_eq, not_true_eq_false, if_false, h1, Res.bind]

/-! ## The claims -/

section Claims

open lru

/-- C3 (code defect).  `Add` on a key that is already present moves the entry to the front
and re-computes the charge, but it never stores the new value: after `Add("a","1")` and
`Add("a","22")` on a store of budget 20 the key is still present and `Get("a")` returns
`("1", true)` instead of `("22", true)`. -/
theorem C3_readd_keeps_old_value :
    run (NewCache 20 false) readd = .ok afterReadd ∧
    afterReadd.has "a" = true ∧
    (afterReadd.Get "a").1 = (some "1", true) ∧
    (afterReadd.Get "a").1 ≠ (some "22", true) := by
  decide

/-- C4.  On a store created with `maxBytes > 0`, after each call of a sequence of `Add`
and `Get` calls returns (that is, after every initial segment `ops.take n` of the
sequence that runs to completion), the byte charge `nbytes` is at most `maxBytes`. -/
theorem C4_byte_budget {V : Type} [Value V] (maxBytes : Int) (onEvicted : Bool)
    (ops : List (Op V)) (n : Nat) (c : Cache V) (hmax : 0 < maxBytes)
    (hops : ∀ op ∈ ops, op.isAddGet = true)
    (h : run (NewCache maxBytes onEvicted) (ops.take n) = .ok c) :
    c.nbytes ≤ maxBytes := by
  have hops2 : ∀ op ∈ ops.take n, op.isAddGet = true :=
    fun o ho => hops o (List.mem_of_mem_take ho)
  exact (run_budget maxBytes hmax (ops.take n) hops2 _ c
    ⟨rfl, by simp only [NewCache]; omega⟩ h).2

/-- Witness of C4: the eviction scenario of the spec (budget 20, four insertions). -/
theorem C4_byte_budget_witness :
    (0 : Int) < 20 ∧ (∀ op ∈ fourAdds, op.isAddGet = true) ∧
    run (NewCache 20 true) (fourAdds.take 4) = .ok afterFour.store ∧
    afterFour.store.nbytes ≤ 20 :=
  ⟨by decide, by decide, by decide,
    C4_byte_budget 20 true fourAdds 4 afterFour.store (by decide) (by decide) (by decide)⟩

/-- C5 (code defect).  After `Add("a","1")` and `Add("a","22")` the charge `nbytes` is 3,
while the only stored entry is `("a","1")` with charge `len(key) + value.Len() = 2`: the
charge was adjusted for a value that was never stored. -/
theorem C5_readd_breaks_accounting :
    run (NewCache 20 false) readd = .ok afterReadd ∧
    afterReadd.nbytes = 3 ∧
    (afterReadd.ll.map charge).sum = 2 ∧
    afterReadd.nbytes ≠ (afterReadd.ll.map charge).sum := by
  decide

/-- C6.  Eviction order.  Let a store be reached from `NewCache` by any calls, and let
`Add(key, value)` return on it.  Then every key `ke` evicted by that `Add` (present before
it, or the added key itself, and absent afterwards) was last accessed earlier than every
key `ks` that survives it: the evicted entries are the least recently used ones.  The
second part is the scenario of the spec: with budget 20 the insertions of `("aaa","1")`,
`("bbb","22")`, `("ccc","333")`, `("ddd","4444")` evict `"aaa"` and nothing else. -/
theorem C6_eviction_order :
    (∀ (V : Type) [Value V] (maxBytes : Int) (onEvicted : Bool) (ops : List (Op V))
        (s s2 : Clocked V) (key : String) (value : V),
        runT (Clocked.init maxBytes onEvicted) ops = .ok s →
        stepT s (.Add key value) = .ok s2 →
        ∀ ke ks : String, (s.store.has ke = true ∨ ke = key) → s2.store.has ke = false →
          s2.store.has ks = true → s2.stamp ke < s2.stamp ks) ∧
    (run (NewCache 20 true) fourAdds = .ok afterFour.store ∧
      afterFour.store.evicted = [("aaa", "1")] ∧
      (afterFour.store.Get "aaa").1 = (none, false) ∧
      (afterFour.store.Get "bbb").1 = (some "22", true) ∧
      (afterFour.store.Get "ccc").1 = (some "333", true) ∧
      (afterFour.store.Get "ddd").1 = (some "4444", true)) := by
  refine ⟨?_, by decide⟩
  intro V _ maxBytes onEvicted ops s s2 key value hrun hstep ke ks hke hgone hks
  have hT : TInv s := TInv_runT ops (TInv_init maxBytes onEvicted) hrun
  obtain ⟨hI, ho, hb⟩ := hT
  obtain ⟨c2, h1, hs, _, hst⟩ := stepT_eq_ok hstep
  have hI2 : Inv c2 := Inv_step hI _ h1
  simp only [touches] at hst
  simp only [step] at h1
  unfold Cache.Add at h1
  rw [hs] at hgone hks
  -- the store before the loop: recency order under the new stamps, and it holds `ke`
  obtain ⟨c1, hI1, ho1, hloop, hpre⟩ : ∃ c1 : Cache V, Inv c1 ∧ Ordered s2.stamp c1.ll ∧
      Cache.evictLoop (c1.ll.length + 1) c1 = .ok c2 ∧ c1.has ke = true := by
    cases hg : GoMap.get s.store.cache key with
    | none =>
      simp only [hg] at h1
      refine ⟨_, Inv_pushFront hI hg value _, ?_, h1, ?_⟩
      · rw [hst]; exact Ordered_push hI ho hb hg _ rfl
      · simp only [Cache.has, GoMap.get_set]
        rcases hke with h | h
        · split
          · rfl
          · exact h
        · simp [h]
    | some data =>
      simp only [hg] at h1
      refine ⟨_, Inv_moveToFront hI hg _, ?_, h1, ?_⟩
      · rw [hst]; exact Ordered_touch hI ho hb hg
      · rcases hke with h | h
        · exact h
        · simp [Cache.has, h, hg]
  obtain ⟨rest, hrest⟩ := evictLoop_ll _ hI1 hloop
  -- the element of `ke` is in the evicted tail, the element of `ks` in the kept front
  simp only [Cache.has, Option.isSome_iff_exists] at hpre hks
  obtain ⟨y, hy⟩ := hpre
  obtain ⟨x, hx⟩ := hks
  obtain ⟨hy1, hy2⟩ := (hI1.index ke y).1 hy
  obtain ⟨hx1, hx2⟩ := (hI2.index ks x).1 hx
  have hy3 : y ∈ rest := by
    rw [hrest, List.mem_append] at hy1
    rcases hy1 with h | h
    · have := (hI2.index ke y).2 ⟨h, hy2⟩
      simp [Cache.has, this] at hgone
    · exact h
  unfold Ordered at ho1
  rw [hrest] at ho1
  have := (List.pairwise_append.1 ho1).2.2 x hx1 y hy3
  rw [hy2, hx2] at this
  exact this

/-- Witness of C6: the fourth insertion of the scenario evicts `"aaa"`, last accessed at
time 1, and keeps `"bbb"`, last accessed at time 2. -/
theorem C6_eviction_order_witness :
    runT (Clocked.init 20 true) threeAdds = .ok afterThree ∧
    stepT afterThree (.Add "ddd" "4444") = .ok afterFour ∧
    afterThree.store.has "aaa" = true ∧ afterFour.store.has "aaa" = false ∧
    afterFour.store.has "bbb" = true ∧ afterFour.stamp "aaa" < afterFour.stamp "bbb" :=
  ⟨by decide, by decide, by decide, by decide, by decide,
    C6_eviction_order.1 String 20 true threeAdds afterThree afterFour "ddd" "4444"
      (by decide) (by decide) "aaa" "bbb" (Or.inl (by decide)) (by decide) (by decide)⟩

end Claims

section RingClaims

open consistenthash

/-- C7.  Ring selection.  On every non-empty ring built by `NewMap` and `Add` calls, for
every key, `SelectNode` returns a nil error and the node the index binds to a point `p` of
the ring; when some point is at or above `hash(key)`, `p` is the least such point; when
`hash(key)` is above every point, `p` is the first and least point (index 0).  The second
part is the scenario of the spec: one replica, hash the first byte minus the digit zero,
peers 2, 4, 8 give `"2" -> 2`, `"3" -> 4`, `"5" -> 8`, and after `Add("6")`, `"5" -> 6`. -/
theorem C7_ring_selection :
    (∀ (replicas : Int) (fn : Option Hash) (batches : List (List Node)) (key : String),
      (build replicas fn batches).keys ≠ [] →
      ∃ p ∈ (build replicas fn batches).keys,
        (build replicas fn batches).SelectNode key =
          (GoMap.get (build replicas fn batches).hashMap p, none) ∧
        ((∃ q ∈ (build replicas fn batches).keys, (build replicas fn batches).hashInt key ≤ q) →
          (build replicas fn batches).hashInt key ≤ p ∧
          ∀ q ∈ (build replicas fn batches).keys,
            (build replicas fn batches).hashInt key ≤ q → p ≤ q) ∧
        ((∀ q ∈ (build replicas fn batches).keys, q < (build replicas fn batches).hashInt key) →
          (build replicas fn batches).keys.head? = some p ∧
          ∀ q ∈ (build replicas fn batches).keys, p ≤ q)) ∧
    (ring248.SelectNode "2" = (some ⟨"2"⟩, none) ∧
      ring248.SelectNode "3" = (some ⟨"4"⟩, none) ∧
      ring248.SelectNode "5" = (some ⟨"8"⟩, none) ∧
      ring2486.SelectNode "5" = (some ⟨"6"⟩, none)) := by
  refine ⟨?_, by decide⟩
  intro replicas fn batches key hne
  exact SelectNode_sorted _ key (build_inv replicas fn batches).1 hne

/-- Witness of C7: on the ring of peers 2, 4, 8 the key `"9"` hashes above every point and
is served by the first point. -/
theorem C7_ring_selection_witness :
    ring248.keys ≠ [] ∧
    ∃ p ∈ ring248.keys, ring248.SelectNode "9" = (GoMap.get ring248.hashMap p, none) ∧
      ((∃ q ∈ ring248.keys, ring248.hashInt "9" ≤ q) →
        ring248.hashInt "9" ≤ p ∧ ∀ q ∈ ring248.keys, ring248.hashInt "9" ≤ q → p ≤ q) ∧
      ((∀ q ∈ ring248.keys, q < ring248.hashInt "9") →
        ring248.keys.head? = some p ∧ ∀ q ∈ ring248.keys, p ≤ q) :=
  ⟨by decide,
    C7_ring_selection.1 1 (some digitHash) [[⟨"2"⟩, ⟨"4"⟩, ⟨"8"⟩]] "9" (by decide)⟩

/-- C8, as stated, fails: under the hash of the tests the nodes `2a` and `2b` collide on
their only replica, and after `Add(2a, 2b)` the index binds the hash of `2a` to `2b`. -/
theorem C8_collision_counterexample :
    ringEmpty.hashInt ("2a" ++ Itoa 0) = ringEmpty.hashInt ("2b" ++ Itoa 0) ∧
    GoMap.get (ringEmpty.Add [⟨"2a"⟩, ⟨"2b"⟩]).hashMap (ringEmpty.hashInt ("2a" ++ Itoa 0))
      = some ⟨"2b"⟩ ∧
    GoMap.get (ringEmpty.Add [⟨"2a"⟩, ⟨"2b"⟩]).hashMap (ringEmpty.hashInt ("2a" ++ Itoa 0))
      ≠ some ⟨"2a"⟩ := by
  decide

theorem mem_newPoints (m : Map) (nodes : List Node) (h : Int) (n : Node) :
    (h, n) ∈ m.newPoints nodes ↔
      n ∈ nodes ∧ ∃ i : Nat, (i : Int) < m.replicas ∧ m.hashInt (n.Name ++ Itoa i) = h := by
  simp only [Map.newPoints, List.mem_flatMap, List.mem_map, List.mem_range, Prod.mk.injEq]
  constructor
  · rintro ⟨node, hnode, i, hi, rfl, rfl⟩
    exact ⟨hnode, i, by omega, rfl⟩
  · rintro ⟨hn, i, hi, rfl⟩
    exact ⟨n, hn, i, by omega, rfl, rfl⟩

/-- C8, amended.  After `Add(nodes...)` the point list is sorted ascending and is a
rearrangement of the previous points together with `hash(node.Name ++ decimal(i))` for
every given node and every `i` in `[0, R)`; the index binds each hash to the node of the
last pair of the call that produced it and is unchanged elsewhere; in particular each new
hash is bound to a given node that produced it, and to its own node when no other node of
the call produces the same hash.  Hence after any sequence of `Add` calls the point list
is sorted ascending and every point has an index entry. -/
theorem C8_ring_add_amended :
    (∀ (m : Map) (nodes : List Node),
      (m.Add nodes).keys.Sorted (fun a b => a ≤ b) ∧
      (m.Add nodes).keys.Perm (m.keys ++ (m.newPoints nodes).map Prod.fst) ∧
      (∀ h : Int, GoMap.get (m.Add nodes).hashMap h =
        match lastBinding (m.newPoints nodes) h with
        | some n => some n
        | none => GoMap.get m.hashMap h) ∧
      (∀ node ∈ nodes, ∀ i : Nat, (i : Int) < m.replicas →
        (∃ n ∈ nodes, (∃ j : Nat, (j : Int) < m.replicas ∧
            m.hashInt (n.Name ++ Itoa j) = m.hashInt (node.Name ++ Itoa i)) ∧
          GoMap.get (m.Add nodes).hashMap (m.hashInt (node.Name ++ Itoa i)) = some n) ∧
        ((∀ n ∈ nodes, ∀ j : Nat, (j : Int) < m.replicas →
            m.hashInt (n.Name ++ Itoa j) = m.hashInt (node.Name ++ Itoa i) → n = node) →
          GoMap.get (m.Add nodes).hashMap (m.hashInt (node.Name ++ Itoa i)) = some node))) ∧
    (∀ (replicas : Int) (fn : Option Hash) (batches : List (List Node)),
      (build replicas fn batches).keys.Sorted (fun a b => a ≤ b) ∧
      ∀ p ∈ (build replicas fn batches).keys,
        (GoMap.get (build replicas fn batches).hashMap p).isSome = true) := by
  refine ⟨?_, build_inv⟩
  intro m nodes
  refine ⟨(Add_keys m nodes).1, (Add_keys m nodes).2, Add_get m nodes, ?_⟩
  intro node hnode i hi
  have hmem : m.hashInt (node.Name ++ Itoa i) ∈ (m.newPoints nodes).map Prod.fst :=
    List.mem_map.2 ⟨(_, node), (mem_newPoints m nodes _ node).2 ⟨hnode, i, hi, rfl⟩, rfl⟩
  have hsome := lastBinding_isSome hmem
  obtain ⟨n, hn⟩ := Option.isSome_iff_exists.1 hsome
  have hget : GoMap.get (m.Add nodes).hashMap (m.hashInt (node.Name ++ Itoa i)) = some n := by
    rw [Add_get, hn]
  obtain ⟨hn1, j, hj, hjh⟩ := (mem_newPoints m nodes _ n).1 (lastBinding_mem hn)
  refine ⟨⟨n, hn1, ⟨j, hj, hjh⟩, hget⟩, ?_⟩
  intro huniq
  rw [hget, huniq n hn1 j hj hjh]

/-- C9.  On every ring built by `NewMap` and `Add` calls and for every key, `SelectNode`
returns a nil node with the error `no nodes available` exactly when the ring has no
points; on a ring with at least one point it returns a nil error and a non-nil node. -/
theorem C9_empty_ring (replicas : Int) (fn : Option Hash) (batches : List (List Node))
    (key : String) :
    ((build replicas fn batches).SelectNode key = (none, some "no nodes available") ↔
      (build replicas fn batches).keys = []) ∧
    ((build replicas fn batches).keys ≠ [] →
      ∃ node, (build replicas fn batches).SelectNode key = (some node, none)) := by
  have hsome : (build replicas fn batches).keys ≠ [] →
      ∃ node, (build replicas fn batches).SelectNode key = (some node, none) := by
    intro hne
    obtain ⟨p, hp, hsel, _⟩ :=
      SelectNode_sorted _ key (build_inv replicas fn batches).1 hne
    obtain ⟨node, hnode⟩ :=
      Option.isSome_iff_exists.1 ((build_inv replicas fn batches).2 p hp)
    exact ⟨node, by rw [hsel, hnode]⟩
  refine ⟨⟨?_, ?_⟩, hsome⟩
  · intro h
    by_contra hne
    obtain ⟨node, hnode⟩ := hsome hne
    rw [hnode] at h
    simp at h
  · intro h
    simp [Map.SelectNode, h]

/-- Witness of C9: the ring of peers 2, 4, 8 has points, and the key `"3"` gets a node. -/
theorem C9_empty_ring_witness :
    ring248.keys ≠ [] ∧ ∃ node, ring248.SelectNode "3" = (some node, none) :=
  ⟨by decide, (C9_empty_ring 1 (some digitHash) [[⟨"2"⟩, ⟨"4"⟩, ⟨"8"⟩]] "3").2 (by decide)⟩

end RingClaims

section GroupClaims

/-- C1, as stated, fails: a group may carry a negative byte budget.  On the group
`NewGroup("g", -1, db)`, which has no picker, the key `Tom` is not empty, is not cached, and
the loader returns `630` for it without error, yet `Get("Tom")` panics: the eviction loop of
`Add` empties the store and calls `RemoveOldst` once more. -/
theorem C1_negative_budget_counterexample :
    NewGroup "g" (-1) (some db) = .ok (freshGroup "g" (-1)) ∧
    (freshGroup "g" (-1)).peers.isNone = true ∧
    (freshGroup "g" (-1)).cached "Tom" = false ∧
    db "Tom" = (consistenthash.bytesOf "630", none) ∧
    ((freshGroup "g" (-1)).Get "Tom").isPanic = true :=
  ⟨rfl, rfl, by decide, by decide, by decide⟩

/-- C1, amended.  For every group made by `NewGroup` with a byte budget that is not
negative and used through any sequence of `Get` calls (no picker is registered), every
non-empty key `K` that is not in the local cache and for which the loader returns bytes `b`
without error: `Get(K)` returns a nil error and a `ByteView` whose contents (`ByteSlice`,
`String`) equal `b`. -/
theorem C1_get_loads_amended (name : String) (cacheBytes : Int) (getter : Getter)
    (keys : List String) (g : Group) (K : String) (b : List UInt8)
    (hb : 0 ≤ cacheBytes) (hmade : Group.made name cacheBytes getter keys = .ok g)
    (hK : K ≠ "") (hmiss : g.cached K = false) (hload : g.getter K = (b, none)) :
    ∃ v g2, g.Get K = .ok ((v, none), g2) ∧ v.ByteSlice = b ∧ v.String = b := by
  obtain ⟨hI, _⟩ := GInv_made name cacheBytes getter keys g hb hmade
  obtain ⟨l, l1, _, _, _, _, _, _, hget⟩ := Get_loads g K b hI hK hmiss hload
  exact ⟨_, _, hget, rfl, rfl⟩

/-- Witness of C1 (amended): the first `Get("Tom")` of the test `TestGroup`. -/
theorem C1_get_loads_amended_witness :
    (0 : Int) ≤ 1000 ∧
    Group.made "MainCache" 1000 db [] = .ok (freshGroup "MainCache" 1000) ∧
    "Tom" ≠ "" ∧ (freshGroup "MainCache" 1000).cached "Tom" = false ∧
    (freshGroup "MainCache" 1000).getter "Tom" = (consistenthash.bytesOf "630", none) ∧
    ∃ v g2, (freshGroup "MainCache" 1000).Get "Tom" = .ok ((v, none), g2) ∧
      v.ByteSlice = consistenthash.bytesOf "630" ∧ v.String = consistenthash.bytesOf "630" :=
  ⟨by decide, rfl, by decide, by decide, by decide,
    C1_get_loads_amended "MainCache" 1000 db [] (freshGroup "MainCache" 1000) "Tom"
      (consistenthash.bytesOf "630") (by decide) rfl (by decide) (by decide) (by decide)⟩

set_option maxRecDepth 100000 in
/-- C2, as stated, fails for a small byte budget: with budget 5 the entry of `Tom`
(charge 3 + 3 = 6) is evicted by the very `Add` that inserts it, so the second
`Get("Tom")` calls the loader again: the trace of loader calls has two entries. -/
theorem C2_small_budget_counterexample :
    viewOf ((freshGroup "MainCache" 5).Get "Tom") =
      .ok ((ByteView.mk (consistenthash.bytesOf "630"), none), ["Tom"]) ∧
    viewOf (((freshGroup "MainCache" 5).Get "Tom").bind (fun r => r.2.Get "Tom")) =
      .ok ((ByteView.mk (consistenthash.bytesOf "630"), none), ["Tom", "Tom"]) := by
  decide

/-- C2, amended.  Read-through for a group whose byte budget is 0 (unbounded) or at least
the charge `len(K) + len(b)` of the entry: on a group made by `NewGroup` and used through
`Get` calls, when `Get(K)` for a non-empty key that is not cached is answered by the loader
with bytes `b`, it returns `b` and records one loader call, and a following `Get(K)`
returns the same value with a nil error and records no loader call. -/
theorem C2_read_through_amended (name : String) (cacheBytes : Int) (getter : Getter)
    (keys : List String) (g : Group) (K : String) (b : List UInt8)
    (hmade : Group.made name cacheBytes getter keys = .ok g)
    (hK : K ≠ "") (hmiss : g.cached K = false) (hload : g.getter K = (b, none))
    (hfit : cacheBytes = 0 ∨ strLen K + (b.length : Int) ≤ cacheBytes) :
    ∃ g1 g2, g.Get K = .ok ((ByteView.mk b, none), g1) ∧ g1.loads = g.loads ++ [K] ∧
      g1.Get K = .ok ((ByteView.mk b, none), g2) ∧ g2.loads = g1.loads := by
  have hlen : 0 ≤ strLen K := by simp [strLen]
  have hb : 0 ≤ cacheBytes := by
    rcases hfit with h | h
    · omega
    · omega
  obtain ⟨hI, hcb⟩ := GInv_made name cacheBytes getter keys g hb hmade
  obtain ⟨l, l1, hl, hg, hadd, hLI, hLA, hMB, hget⟩ := Get_loads g K b hI hK hmiss hload
  have hkeep := lru.Add_new_keeps l l1 hLI hLA K (ByteView.mk b) hg
    (by show (0 : Int) ≤ ByteView.Len (ByteView.mk b); simp [ByteView.Len])
    (by
      rw [hMB, hcb]
      show cacheBytes = 0 ∨ strLen K + ByteView.Len (ByteView.mk b) ≤ cacheBytes
      simpa [ByteView.Len] using hfit) hadd
  exact ⟨_, _, hget, rfl,
    Get_hit (g.loaded K { g.mainCache with lru := some l1 }) l1 K
      { id := l.nextId, Value := { key := K, value := ByteView.mk b } } hK rfl hkeep, rfl⟩

/-- Witness of C2 (amended): the two `Get("Tom")` calls of the test `TestGroup`. -/
theorem C2_read_through_amended_witness :
    Group.made "MainCache" 1000 db [] = .ok (freshGroup "MainCache" 1000) ∧
    "Tom" ≠ "" ∧ (freshGroup "MainCache" 1000).cached "Tom" = false ∧
    (freshGroup "MainCache" 1000).getter "Tom" = (consistenthash.bytesOf "630", none) ∧
    ((1000 : Int) = 0 ∨
      strLen "Tom" + ((consistenthash.bytesOf "630").length : Int) ≤ 1000) ∧
    ∃ g1 g2, (freshGroup "MainCache" 1000).Get "Tom" =
        .ok ((ByteView.mk (consistenthash.bytesOf "630"), none), g1) ∧
      g1.loads = (freshGroup "MainCache" 1000).loads ++ ["Tom"] ∧
      g1.Get "Tom" = .ok ((ByteView.mk (consistenthash.bytesOf "630"), none), g2) ∧
      g2.loads = g1.loads :=
  ⟨rfl, by decide, by decide, by decide, by decide,
    C2_read_through_amended "MainCache" 1000 db [] (freshGroup "MainCache" 1000) "Tom"
      (consistenthash.bytesOf "630") rfl (by decide) (by decide) (by decide) (by decide)⟩

/-- C10.  For every group in any state, `Get("")` returns a non-nil error and an empty
`ByteView`, and leaves the group as it was: no loader call, no `PickPeer` call, no peer
fetch, the local cache and the in-flight table unchanged. -/
theorem C10_empty_key (g : Group) :
    ∃ v err g2, g.Get "" = .ok ((v, some err), g2) ∧ v.Len = 0 ∧ v.ByteSlice = [] ∧
      g2.loads = g.loads ∧ g2.picks = g.picks ∧ g2.fetches = g.fetches ∧
      g2.mainCache.lru = g.mainCache.lru ∧ g2.m = g.m ∧ g2.peers = g.peers :=
  ⟨ByteView.mk [], "key is empty", g, Get_empty g, rfl, rfl, rfl, rfl, rfl, rfl, rfl, rfl⟩

end GroupClaims

/-! ### Promotion, and the store without budget -/

namespace lru

variable {V : Type}

theorem filter_id_eq_filter_key {c : Cache V} (hI : Inv c) {key : String} {e : Element V}
    (hg : GoMap.get c.cache key = some e) :
    c.ll.filter (fun x => x.id != e.id) = c.ll.filter (fun x => decide (x.Value.key ≠ key)) := by
  obtain ⟨hmem, hkey⟩ := (hI.index key e).1 hg
  apply List.filter_congr
  intro x hx
  by_cases hxe : x = e
  · subst hxe
    simp [hkey]
  · have h1 : x.id ≠ e.id := fun h => hxe (id_inj hI.ids_nodup hx hmem h)
    have h2 : x.Value.key ≠ key := by
      rw [← hkey]
      exact key_ne_of_ne hI hx hmem hxe
    simp [h1, h2]

theorem MoveToFront_promoted {c : Cache V} (hI : Inv c) {key : String} {e : Element V}
    (hg : GoMap.get c.cache key = some e) :
    MoveToFront c.ll e = promoted c.ll e key := by
  rw [MoveToFront_of_mem ((hI.index key e).1 hg).1, filter_id_eq_filter_key hI hg]
  rfl

theorem evictLoop_skip [Value V] (n : Nat) (c : Cache V)
    (h : ¬ (c.maxBytes ≠ 0 ∧ c.maxBytes < c.nbytes)) : Cache.evictLoop n c = .ok c := by
  cases n <;> simp only [Cache.evictLoop, h, if_false]

end lru

namespace GoMap
variable {κ ν : Type} [DecidableEq κ]

theorem get_isSome_iff (m : GoMap κ ν) (k : κ) :
    (get m k).isSome = true ↔ k ∈ m.map Prod.fst := by
  induction m with
  | nil => simp [get]
  | cons p t ih =>
    obtain ⟨a, b⟩ := p
    simp only [get, List.map_cons, List.mem_cons]
    by_cases h : a = k
    · simp [h]
    · have : ¬ k = a := fun e => h e.symm
      simp [h, this, ih]

theorem keys_delete (m : GoMap κ ν) (k : κ) :
    (delete m k).map Prod.fst = (m.map Prod.fst).filter (fun a => decide (a ≠ k)) := by
  unfold delete
  rw [List.filter_map]
  rfl

theorem nodup_keys_set (m : GoMap κ ν) (k : κ) (v : ν) (h : (m.map Prod.fst).Nodup) :
    ((set m k v).map Prod.fst).Nodup := by
  unfold set
  rw [List.map_cons, List.nodup_cons, keys_delete]
  refine ⟨?_, h.filter _⟩
  simp [List.mem_filter]

theorem len_of_nodup (m : GoMap κ ν) (h : (m.map Prod.fst).Nodup) :
    len m = (m.map Prod.fst).length := by
  unfold len
  rw [List.Nodup.dedup h]

end GoMap

namespace lru
variable {V : Type}

theorem Add_unbounded [Value V] (c : Cache V) (h0 : c.maxBytes = 0) (key : String) (value : V) :
    ∃ c1, c.Add key value = .ok c1 ∧ c1.maxBytes = 0 ∧ c1.evicted = c.evicted ∧
      c1.cache = (match GoMap.get c.cache key with
        | some _ => c.cache
        | none => GoMap.set c.cache key { id := c.nextId, Value := { key := key, value := value } }) := by
  unfold Cache.Add
  cases hg : GoMap.get c.cache key with
  | none =>
    simp only [hg]
    rw [evictLoop_skip _ _ (by simp [h0])]
    exact ⟨_, rfl, h0, rfl, rfl⟩
  | some data =>
    simp only [hg]
    rw [evictLoop_skip _ _ (by simp [h0])]
    exact ⟨_, rfl, h0, rfl, rfl⟩

theorem run_unbounded [Value V] (ops : List (Op V)) (hops : ∀ op ∈ ops, op.isAddGet = true)
    (c : Cache V) (h0 : c.maxBytes = 0) (hn : (c.cache.map Prod.fst).Nodup) :
    ∃ c1, run c ops = .ok c1 ∧ c1.maxBytes = 0 ∧ (c1.cache.map Prod.fst).Nodup ∧
      (∀ k, c1.has k = true ↔ (c.has k = true ∨ k ∈ addedKeys ops)) ∧
      c1.evicted = c.evicted := by
  induction ops generalizing c with
  | nil => exact ⟨c, rfl, h0, hn, by simp [addedKeys], rfl⟩
  | cons op ops ih =>
    have hops2 : ∀ op ∈ ops, op.isAddGet = true := fun o ho => hops o (List.mem_cons_of_mem _ ho)
    have hop := hops op (List.mem_cons_self _ _)
    cases op with
    | RemoveOldst => simp [Op.isAddGet] at hop
    | Get key =>
      have hf := Get_frame c key
      obtain ⟨c1, h1, h2, h3, h4, h5⟩ := ih hops2 (c.Get key).2 (hf.1.trans h0)
        (by rw [hf.2.2.1]; exact hn)
      refine ⟨c1, by simp only [run, step, Res.bind]; exact h1, h2, h3, ?_, ?_⟩
      · intro k
        rw [h4 k]
        simp only [Cache.has, hf.2.2.1, addedKeys]
      · rw [h5, hf.2.2.2.2]
    | Add key value =>
      obtain ⟨c2, ha, hb, hc, hd⟩ := Add_unbounded c h0 key value
      have hn2 : (c2.cache.map Prod.fst).Nodup := by
        rw [hd]
        cases hg : GoMap.get c.cache key with
        | none => exact GoMap.nodup_keys_set _ _ _ hn
        | some d => exact hn
      obtain ⟨c1, h1, h2, h3, h4, h5⟩ := ih hops2 c2 hb hn2
      refine ⟨c1, by simp only [run, step, ha, Res.bind]; exact h1, h2, h3, ?_, by rw [h5, hc]⟩
      intro k
      rw [h4 k]
      simp only [addedKeys, List.mem_cons, Cache.has, hd]
      cases hg : GoMap.get c.cache key with
      | none =>
        simp only [GoMap.get_set]
        by_cases hk : k = key
        · simp [hk]
        · simp [hk]
      | some d =>
        simp only
        by_cases hk : k = key
        · subst hk; simp [hg]
        · simp [hk]

end lru

section StoreClaims

open lru

/-- C18.  On a store created with `maxBytes = 0`, every sequence of `Add` and `Get` calls
runs to completion, and afterwards the keys present are exactly the keys that were ever
added, `Len()` is the number of distinct keys added, and the eviction callback was never
called. -/
theorem C18_unbounded_store {V : Type} [Value V] (onEvicted : Bool) (ops : List (Op V))
    (hops : ∀ op ∈ ops, op.isAddGet = true) :
    ∃ c, run (NewCache 0 onEvicted) ops = .ok c ∧
      (∀ key, c.has key = true ↔ key ∈ addedKeys ops) ∧
      c.Len = (addedKeys ops).dedup.length ∧
      c.evicted = [] := by
  obtain ⟨c, h1, _, h3, h4, h5⟩ := run_unbounded ops hops (NewCache 0 onEvicted) rfl
    (by simp [NewCache])
  have hmem : ∀ key, c.has key = true ↔ key ∈ addedKeys ops := by
    intro key
    rw [h4 key]
    simp [Cache.has, NewCache, GoMap.get]
  refine ⟨c, h1, hmem, ?_, by rw [h5]; rfl⟩
  unfold Cache.Len
  rw [GoMap.len_of_nodup _ h3]
  apply List.Perm.length_eq
  rw [List.perm_ext_iff_of_nodup h3 (List.nodup_dedup _)]
  intro k
  rw [List.mem_dedup, ← hmem k, Cache.has, GoMap.get_isSome_iff]

/-- Witness of C18: a sequence with a repeated key and a lookup that misses. -/
theorem C18_unbounded_store_witness :
    (∀ op ∈ unboundedOps, op.isAddGet = true) ∧
    ∃ c, run (NewCache 0 true) unboundedOps = .ok c ∧
      (∀ key, c.has key = true ↔ key ∈ addedKeys unboundedOps) ∧
      c.Len = (addedKeys unboundedOps).dedup.length ∧
      c.evicted = [] :=
  ⟨by decide, C18_unbounded_store true unboundedOps (by decide)⟩

/-- C19.  `Get` on a key that is not present returns `(nil, false)` and leaves the whole
store (recency list, index, byte charge) as it was. -/
theorem C19_get_absent {V : Type} (c : Cache V) (K : String) (habs : c.has K = false) :
    c.Get K = ((none, false), c) := by
  unfold Cache.has at habs
  unfold Cache.Get
  cases hg : GoMap.get c.cache K with
  | none => rfl
  | some d => simp [hg] at habs

/-- Witness of C19: the evicted key `"aaa"` in the store of the eviction scenario. -/
theorem C19_get_absent_witness :
    afterFour.store.has "aaa" = false ∧
    afterFour.store.Get "aaa" = ((none, false), afterFour.store) :=
  ⟨by decide, C19_get_absent afterFour.store "aaa" (by decide)⟩

/-- C20, as stated, fails for `Add`: on the store of budget 10 that holds `("a","1")`, the
call `Add("a", "0123456789")` raises the charge to 11, and the eviction loop that follows
the promotion removes the entry of `"a"` itself: the key is gone, not at the front. -/
theorem C20_big_readd_counterexample :
    run (NewCache 10 false) [.Add "a" "1"] = .ok oneA ∧
    oneA.has "a" = true ∧
    oneA.Add "a" "0123456789" = .ok afterBigReadd ∧
    afterBigReadd.ll = [] ∧ afterBigReadd.has "a" = false := by
  decide

/-- C20, amended.  On a store reached from `NewCache` by any calls, for a key `K` bound to
element `e`: `Get(K)` returns the value of `e`, puts `e` at the front with the other
entries in their previous order, and leaves the byte charge and the index alone;
`Add(K, v)`, when it returns, leaves a front segment of that same promoted list (its
eviction loop removes entries from the least recently used end only), and the whole
promoted list when the budget is 0 or the new charge is within the budget. -/
theorem C20_promotion_amended {V : Type} [Value V] (maxBytes : Int) (onEvicted : Bool)
    (ops : List (Op V)) (c : Cache V) (K : String) (e : Element V)
    (hreach : run (NewCache maxBytes onEvicted) ops = .ok c)
    (hK : GoMap.get c.cache K = some e) :
    (e ∈ c.ll ∧ e.Value.key = K) ∧
    ((c.Get K).1 = (some e.Value.value, true) ∧ (c.Get K).2.ll = promoted c.ll e K ∧
      (c.Get K).2.nbytes = c.nbytes ∧ (c.Get K).2.cache = c.cache) ∧
    (∀ (v : V) (c1 : Cache V), c.Add K v = .ok c1 →
      ∃ rest, promoted c.ll e K = c1.ll ++ rest) ∧
    (∀ v : V,
      ¬ (c.maxBytes ≠ 0 ∧ c.maxBytes <
          wrap64 (wrap64 (c.nbytes - wrap64 (Value.Len e.Value.value)) + wrap64 (Value.Len v))) →
      ∃ c1, c.Add K v = .ok c1 ∧ c1.ll = promoted c.ll e K) := by
  have hI : Inv c := Inv_run ops (Inv_NewCache maxBytes onEvicted) hreach
  have hprom := MoveToFront_promoted hI hK
  refine ⟨(hI.index K e).1 hK, ?_, ?_, ?_⟩
  · simp only [Cache.Get, hK, hprom, and_self]
  · intro v c1 hadd
    unfold Cache.Add at hadd
    simp only [hK] at hadd
    obtain ⟨rest, hrest⟩ := evictLoop_ll _ (Inv_moveToFront hI hK _) hadd
    exact ⟨rest, by rw [← hprom]; exact hrest⟩
  · intro v hfit
    unfold Cache.Add
    simp only [hK]
    rw [evictLoop_skip _ _ hfit]
    exact ⟨_, rfl, hprom⟩

/-- Witness of C20 (amended): `Get("aaa")` on the store after the first three insertions of
the eviction scenario. -/
theorem C20_promotion_amended_witness :
    run (NewCache 20 true) threeAdds = .ok afterThree.store ∧
    GoMap.get afterThree.store.cache "aaa" = some (elt 0 "aaa" "1") ∧
    (afterThree.store.Get "aaa").2.ll = promoted afterThree.store.ll (elt 0 "aaa" "1") "aaa" :=
  ⟨by decide, by decide,
    (C20_promotion_amended 20 true threeAdds afterThree.store "aaa" (elt 0 "aaa" "1")
      (by decide) (by decide)).2.1.2.1⟩
end StoreClaims

/-! ### The group with a picker, the registry, the pool -/

theorem cache_get_absent (c : cache) (key : String)
    (h : (match c.lru with
      | none => false
      | some l => l.has key) = false) :
    c.get key = ((ByteView.mk [], false), c) := by
  cases hl : c.lru with
  | none => simp [cache.get, hl]
  | some l =>
    rw [hl] at h
    simp only [lru.Cache.has] at h
    cases hg : GoMap.get l.cache key with
    | none => exact cache_get_miss c l key hl hg
    | some d => simp [hg] at h

theorem Res.map_ok {α β : Type} (f : α → β) (a : α) : Res.map f (.ok a) = .ok (f a) := rfl

theorem Res.map_eq_ok {α β : Type} {f : α → β} {r : Res α} {b : β}
    (h : Res.map f r = .ok b) : ∃ a, r = .ok a ∧ f a = b := by
  unfold Res.map at h
  obtain ⟨a, h1, h2⟩ := Res.bind_eq_ok h
  exact ⟨a, h1, by simpa using h2⟩

/-- `Get` on a non-empty key that misses the local cache while no call for it is in flight:
the closure runs between the registration and the deletion of the call. -/
theorem Get_miss_gen (g : Group) (key : String) (hk : key ≠ "")
    (hmiss : g.cached key = false) (hi : g.inflight key = none) :
    g.Get key =
      ((Group.loadFn key (g.armed key)).bind (fun r =>
        .ok (r.1, { r.2 with m := (r.2.m).map (fun t => GoMap.delete t key) }))).bind
        (fun r => match r.1.1 with
          | some v => .ok ((v, r.1.2), r.2)
          | none => .panic) := by
  unfold Group.inflight at hi
  unfold Group.cached at hmiss
  simp only [Group.Get, hk, if_false, cache_get_absent g.mainCache key hmiss,
    Bool.false_eq_true, Group.load, Group.Do, hi, Group.armed]

theorem getLocally_frame (g : Group) (key : String) (x : (ByteView × GoError) × Group)
    (h : g.getLocally key = .ok x) :
    x.2.m = g.m ∧ x.2.peers = g.peers ∧ x.2.getter = g.getter ∧ x.2.name = g.name := by
  unfold Group.getLocally at h
  by_cases he : (g.getter key).2 ≠ none
  · rw [if_pos he] at h
    cases h
    exact ⟨rfl, rfl, rfl, rfl⟩
  · rw [if_neg he] at h
    obtain ⟨mc, _, h2⟩ := Res.bind_eq_ok h
    cases h2
    exact ⟨rfl, rfl, rfl, rfl⟩

theorem getFromPeer_frame (g : Group) (peer : Option PeerGetter) (key : String)
    (x : (ByteView × GoError) × Group) (h : g.getFromPeer peer key = .ok x) :
    x.2.m = g.m ∧ x.2.peers = g.peers ∧ x.2.getter = g.getter ∧ x.2.name = g.name := by
  unfold Group.getFromPeer at h
  cases peer with
  | none => cases h
  | some p =>
    simp only at h
    split at h <;> cases h <;> exact ⟨rfl, rfl, rfl, rfl⟩

theorem loadFn_frame (g : Group) (key : String) (x : (Option ByteView × GoError) × Group)
    (h : Group.loadFn key g = .ok x) :
    x.2.m = g.m ∧ x.2.peers = g.peers ∧ x.2.getter = g.getter ∧ x.2.name = g.name := by
  have hw : ∀ (g1 : Group) (y : (Option ByteView × GoError) × Group),
      (g1.getLocally key).bind (fun x => .ok ((some x.1.1, x.1.2), x.2)) = .ok y →
      y.2.m = g1.m ∧ y.2.peers = g1.peers ∧ y.2.getter = g1.getter ∧ y.2.name = g1.name := by
    intro g1 y hy
    obtain ⟨z, hz, h2⟩ := Res.bind_eq_ok hy
    cases h2
    exact getLocally_frame g1 key z hz
  unfold Group.loadFn at h
  cases hp : g.peers with
  | none =>
    simp only [hp] at h
    have := hw g x h
    rw [hp] at this
    exact this
  | some peers =>
    simp only [hp] at h
    by_cases hb : (peers key).2 = true
    · rw [if_pos hb] at h
      obtain ⟨z, hz, h2⟩ := Res.bind_eq_ok h
      have hf := getFromPeer_frame _ _ _ z hz
      by_cases hzn : z.1.2 = none
      · rw [if_pos hzn] at h2
        cases h2
        simp only [hp] at hf
        exact hf
      · rw [if_neg hzn] at h2
        have := hw z.2 x h2
        simp only [hp] at hf
        exact ⟨this.1.trans hf.1, this.2.1.trans hf.2.1,
          this.2.2.1.trans hf.2.2.1, this.2.2.2.trans hf.2.2.2⟩
    · rw [if_neg hb] at h
      have := hw _ x h
      simp only [hp] at this
      exact this

theorem Get_group_frame (g : Group) (key : String) (r : (ByteView × GoError) × Group)
    (h : g.Get key = .ok r) :
    r.2.peers = g.peers ∧ r.2.getter = g.getter ∧ r.2.name = g.name ∧
    ((∀ k, g.inflight k = none) → ∀ k, r.2.inflight k = none) := by
  unfold Group.Get at h
  by_cases hk : key = ""
  · rw [if_pos hk] at h
    cases h
    exact ⟨rfl, rfl, rfl, fun hi => hi⟩
  · rw [if_neg hk] at h
    simp only at h
    by_cases hhit : (g.mainCache.get key).1.2 = true
    · rw [if_pos hhit] at h
      cases h
      exact ⟨rfl, rfl, rfl, fun hi => hi⟩
    · rw [if_neg hhit] at h
      unfold Group.load at h
      obtain ⟨d, hd, h2⟩ := Res.bind_eq_ok h
      unfold Group.Do at hd
      simp only at hd
      cases hfl : GoMap.get (g.m.getD []) key with
      | some c => simp [hfl] at hd
      | none =>
        simp only [hfl] at hd
        obtain ⟨x, hx, h3⟩ := Res.bind_eq_ok hd
        have hf := loadFn_frame _ key x hx
        simp only [Res.ok.injEq] at h3
        subst h3
        cases hv : x.1.1 with
        | none => simp [hv] at h2
        | some v =>
          simp only [hv, Res.ok.injEq] at h2
          subst h2
          refine ⟨hf.2.1, hf.2.2.1, hf.2.2.2, ?_⟩
          intro hi k
          have := hi k
          unfold Group.inflight at this ⊢
          simp only [hf.1, Option.map_some', Option.getD_some, GoMap.get_delete, GoMap.get_set]
          split
          · rfl
          · exact this

theorem step_idle (g g1 : Group) (op : GroupOp) (h : g.step op = .ok g1)
    (hi : ∀ k, g.inflight k = none) : ∀ k, g1.inflight k = none := by
  cases op with
  | Get key =>
    simp only [Group.step] at h
    obtain ⟨r, hr, h2⟩ := Res.map_eq_ok h
    subst h2
    exact (Get_group_frame g key r hr).2.2.2 hi
  | RegisterNodes peers =>
    simp only [Group.step, Group.RegisterNodes] at h
    cases hp : g.peers with
    | some _ => simp [hp] at h
    | none =>
      simp only [hp, Res.ok.injEq] at h
      subst h
      exact hi

theorem run_idle (ops : List GroupOp) (g g1 : Group) (h : g.run ops = .ok g1)
    (hi : ∀ k, g.inflight k = none) : ∀ k, g1.inflight k = none := by
  induction ops generalizing g with
  | nil =>
    simp only [Group.run, Res.ok.injEq] at h
    subst h; exact hi
  | cons op ops ih =>
    simp only [Group.run] at h
    obtain ⟨g2, h1, h2⟩ := Res.bind_eq_ok h
    exact ih g2 h2 (step_idle g g2 op h1 hi)

/-- Between the calls of one caller no call is in flight. -/
theorem reached_idle (name : String) (cacheBytes : Int) (getter : Getter)
    (ops : List GroupOp) (g : Group)
    (h : Group.reached name cacheBytes getter ops = .ok g) : ∀ k, g.inflight k = none := by
  unfold Group.reached at h
  obtain ⟨g0, h0, h1⟩ := Res.bind_eq_ok h
  simp only [NewGroup, Res.ok.injEq] at h0
  subst h0
  exact run_idle ops _ g h1 (by intro k; simp [Group.inflight, GoMap.get])

/-- A miss that the loader answers with an error, on a group without picker. -/
theorem Get_loader_error (g : Group) (key : String) (hk : key ≠ "") (hp : g.peers = none)
    (hmiss : g.cached key = false) (hi : g.inflight key = none)
    (he : (g.getter key).2 ≠ none) :
    g.Get key = .ok ((ByteView.mk [], (g.getter key).2), g.loaded key g.mainCache) := by
  rw [Get_miss_gen g key hk hmiss hi]
  simp only [Group.loadFn, Group.armed, hp, Group.getLocally, he, if_true, ne_eq,
    not_false_eq_true, Res.bind, Group.loaded, Option.map_some']

/-- A miss that a remote peer answers without error. -/
theorem Get_remote (g : Group) (key : String) (pk : PeerPicker) (p : PeerGetter)
    (hk : key ≠ "") (hp : g.peers = some pk) (hpick : pk key = (some p, true))
    (hmiss : g.cached key = false) (hi : g.inflight key = none)
    (hok : (p g.name key).2 = none) :
    g.Get key = .ok ((ByteView.mk (p g.name key).1, none),
      { g with
        m := some (GoMap.delete (GoMap.set (g.m.getD []) key { val := none, err := none }) key)
        picks := g.picks ++ [key]
        fetches := g.fetches ++ [key] }) := by
  rw [Get_miss_gen g key hk hmiss hi]
  simp only [Group.loadFn, Group.armed, hp, hpick, if_true, Group.getFromPeer, hok, ne_eq,
    not_true_eq_false, if_false, Res.bind, Option.map_some']

theorem Get_fallback (g : Group) (pk : PeerPicker) (p : PeerGetter) (K : String)
    (hpeers : g.peers = some pk) (hpick : pk K = (some p, true))
    (hfail : (p g.name K).2 ≠ none) :
    Res.map localView (g.Get K) = Res.map localView ({ g with peers := none }.Get K) := by
  unfold Group.Get
  by_cases hk : K = ""
  · simp only [hk, if_true]
    rfl
  · simp only [hk, if_false]
    by_cases hhit : (g.mainCache.get K).1.2 = true
    · simp only [hhit, if_true]
      rfl
    · simp only [hhit, if_false, Group.load, Group.Do]
      cases hfl : GoMap.get (g.m.getD []) K with
      | some c => rfl
      | none =>
        simp only [Group.loadFn, hpeers, hpick, if_true, Group.getFromPeer, hfail,
          Group.getLocally, ne_eq, not_false_eq_true]
        by_cases he : (g.getter K).2 ≠ none
        · simp only [he, if_true, ne_eq, not_false_eq_true, Res.bind, hfail, if_false]
          rfl
        · simp only [he, if_false, ne_eq, Res.bind, hfail]
          cases hadd : (g.mainCache.get K).2.add K (ByteView.mk (cloneBytes (g.getter K).1)) with
          | ok mc => rfl
          | panic => rfl
          | blocked => rfl
          | outOfFuel => rfl

/-- A miss that the loader answers without error, on a group without picker. -/
theorem Get_loader_ok (g : Group) (key : String) (hk : key ≠ "") (hp : g.peers = none)
    (hmiss : g.cached key = false) (hi : g.inflight key = none)
    (he : (g.getter key).2 = none) :
    g.Get key = (g.mainCache.add key (ByteView.mk (g.getter key).1)).bind (fun mc =>
      .ok ((ByteView.mk (g.getter key).1, none), g.loaded key mc)) := by
  rw [Get_miss_gen g key hk hmiss hi]
  simp only [Group.loadFn, Group.armed, hp, Group.getLocally, he, ne_eq, not_true_eq_false,
    if_false, cloneBytes]
  cases g.mainCache.add key (ByteView.mk (g.getter key).1) <;>
    simp [Res.bind, Group.loaded, hp]

theorem step_peers (g g1 : Group) (op : GroupOp) (pk : PeerPicker) (hp : g.peers = some pk)
    (h : g.step op = .ok g1) : g1.peers = some pk := by
  cases op with
  | Get key =>
    simp only [Group.step] at h
    obtain ⟨r, hr, h2⟩ := Res.map_eq_ok h
    subst h2
    exact (Get_group_frame g key r hr).1.trans hp
  | RegisterNodes peers =>
    simp [Group.step, Group.RegisterNodes, hp] at h

theorem run_peers (ops : List GroupOp) (g g1 : Group) (pk : PeerPicker)
    (hp : g.peers = some pk) (h : g.run ops = .ok g1) : g1.peers = some pk := by
  induction ops generalizing g with
  | nil =>
    simp only [Group.run, Res.ok.injEq] at h
    subst h; exact hp
  | cons op ops ih =>
    simp only [Group.run] at h
    obtain ⟨g2, h1, h2⟩ := Res.bind_eq_ok h
    exact ih g2 (step_peers g g2 op pk hp h1) h2

section GroupClaims2

/-- C11.  Loader errors are not cached.  On a group made by `NewGroup` and used through any
calls, with no picker registered, for a non-empty key `K` that is not in the local cache
and for which the loader fails with error `e`: `Get(K)` returns `e` with an empty
`ByteView`, leaves the local cache unchanged and records one loader call; a repeated
`Get(K)` does the same again (two calls, two loader calls). -/
theorem C11_loader_errors_not_cached (name : String) (cacheBytes : Int) (getter : Getter)
    (ops : List GroupOp) (g : Group) (K e : String)
    (hreach : Group.reached name cacheBytes getter ops = .ok g) (hp : g.peers = none)
    (hK : K ≠ "") (hmiss : g.cached K = false) (hfail : (g.getter K).2 = some e) :
    ∃ g1 g2, g.Get K = .ok ((ByteView.mk [], some e), g1) ∧
      g1.mainCache = g.mainCache ∧ g1.loads = g.loads ++ [K] ∧
      g1.Get K = .ok ((ByteView.mk [], some e), g2) ∧
      g2.mainCache = g.mainCache ∧ g2.loads = g.loads ++ [K, K] := by
  have hi := reached_idle name cacheBytes getter ops g hreach
  have he : (g.getter K).2 ≠ none := by rw [hfail]; simp
  have h1 := Get_loader_error g K hK hp hmiss (hi K) he
  have h2 := Get_loader_error (g.loaded K g.mainCache) K hK hp hmiss
    (loaded_idle g K _ hi K) he
  rw [hfail] at h1
  have h3 : (g.loaded K g.mainCache).Get K =
      .ok ((ByteView.mk [], some e), (g.loaded K g.mainCache).loaded K g.mainCache) := by
    rw [h2]
    show Res.ok ((ByteView.mk [], (g.getter K).2), _) = _
    rw [hfail]
    rfl
  exact ⟨g.loaded K g.mainCache, (g.loaded K g.mainCache).loaded K g.mainCache,
    h1, rfl, rfl, h3, rfl, by simp [Group.loaded]⟩

/-- Witness of C11: `Get("unknown")` twice on the fresh group of the test `TestGroup`. -/
theorem C11_loader_errors_not_cached_witness :
    Group.reached "MainCache" 1000 db [] = .ok (freshGroup "MainCache" 1000) ∧
    (freshGroup "MainCache" 1000).peers = none ∧ "unknown" ≠ "" ∧
    (freshGroup "MainCache" 1000).cached "unknown" = false ∧
    ((freshGroup "MainCache" 1000).getter "unknown").2 = some "can't found data" ∧
    ∃ g1 g2, (freshGroup "MainCache" 1000).Get "unknown" =
        .ok ((ByteView.mk [], some "can't found data"), g1) ∧
      g1.mainCache = (freshGroup "MainCache" 1000).mainCache ∧
      g1.loads = (freshGroup "MainCache" 1000).loads ++ ["unknown"] ∧
      g1.Get "unknown" = .ok ((ByteView.mk [], some "can't found data"), g2) ∧
      g2.mainCache = (freshGroup "MainCache" 1000).mainCache ∧
      g2.loads = (freshGroup "MainCache" 1000).loads ++ ["unknown", "unknown"] :=
  ⟨rfl, rfl, by decide, by decide, by decide,
    C11_loader_errors_not_cached "MainCache" 1000 db [] (freshGroup "MainCache" 1000)
      "unknown" "can't found data" rfl rfl (by decide) (by decide) (by decide)⟩

/-- C12.  Remote pass-through.  On a group made by `NewGroup` and used through any calls,
with picker `pk` registered: if `PickPeer(K)` reports the remote peer `p` and the fetch from
`p` succeeds with bytes `b`, then `Get(K)` on a local miss returns a `ByteView` with
contents `b`, calls the loader not at all, and leaves the local cache exactly as it was
(`K` is not inserted). -/
theorem C12_remote_pass_through (name : String) (cacheBytes : Int) (getter : Getter)
    (ops : List GroupOp) (g : Group) (pk : PeerPicker) (p : PeerGetter) (K : String)
    (b : List UInt8)
    (hreach : Group.reached name cacheBytes getter ops = .ok g)
    (hpeers : g.peers = some pk) (hpick : pk K = (some p, true))
    (hfetch : p g.name K = (b, none)) (hK : K ≠ "") (hmiss : g.cached K = false) :
    ∃ g1, g.Get K = .ok ((ByteView.mk b, none), g1) ∧ (ByteView.mk b).ByteSlice = b ∧
      g1.loads = g.loads ∧ g1.mainCache = g.mainCache ∧ g1.cached K = false := by
  have hi := reached_idle name cacheBytes getter ops g hreach
  have h1 := Get_remote g K pk p hK hpeers hpick hmiss (hi K) (by rw [hfetch])
  rw [hfetch] at h1
  exact ⟨_, h1, rfl, rfl, rfl, hmiss⟩

/-- Witness of C12: the key `Tom` on the group with `remotePicker`. -/
theorem C12_remote_pass_through_witness :
    Group.reached "MainCache" 1000 db [.RegisterNodes (some remotePicker)] = .ok pickedGroup ∧
    pickedGroup.peers = some remotePicker ∧ remotePicker "Tom" = (some remotePeer, true) ∧
    remotePeer pickedGroup.name "Tom" = (consistenthash.bytesOf "remote", none) ∧
    "Tom" ≠ "" ∧ pickedGroup.cached "Tom" = false ∧
    ∃ g1, pickedGroup.Get "Tom" =
        .ok ((ByteView.mk (consistenthash.bytesOf "remote"), none), g1) ∧
      (ByteView.mk (consistenthash.bytesOf "remote")).ByteSlice = consistenthash.bytesOf "remote" ∧
      g1.loads = pickedGroup.loads ∧ g1.mainCache = pickedGroup.mainCache ∧
      g1.cached "Tom" = false :=
  ⟨rfl, rfl, rfl, by decide, by decide, by decide,
    C12_remote_pass_through "MainCache" 1000 db [.RegisterNodes (some remotePicker)]
      pickedGroup remotePicker remotePeer "Tom" (consistenthash.bytesOf "remote")
      rfl rfl rfl (by decide) (by decide) (by decide)⟩

/-- C13.  Peer failure falls back to the loader.  On every group with picker `pk`, if
`PickPeer(K)` reports the remote peer `p` and the fetch from `p` fails, then `Get(K)`
yields exactly the outcome, returned pair, local cache and loader calls that it yields on
the same group without picker.  On a local miss this is: the error of the loader (not of
the peer) with the cache unchanged when the loader fails, and the bytes of the loader,
inserted into the local cache by `add`, when the loader succeeds. -/
theorem C13_peer_failure_fallback (g : Group) (pk : PeerPicker) (p : PeerGetter)
    (K : String) (hpeers : g.peers = some pk) (hpick : pk K = (some p, true))
    (hfail : (p g.name K).2 ≠ none) :
    Res.map localView (g.Get K) = Res.map localView ({ g with peers := none }.Get K) ∧
    (K ≠ "" → g.cached K = false → g.inflight K = none →
      (∀ e, (g.getter K).2 = some e →
        ∃ g1, g.Get K = .ok ((ByteView.mk [], some e), g1) ∧ g1.mainCache = g.mainCache) ∧
      ((g.getter K).2 = none → ∀ r, g.Get K = .ok r →
        r.1 = (ByteView.mk (g.getter K).1, none) ∧
        g.mainCache.add K (ByteView.mk (g.getter K).1) = .ok r.2.mainCache)) := by
  have heq := Get_fallback g pk p K hpeers hpick hfail
  refine ⟨heq, ?_⟩
  intro hK hmiss hi
  constructor
  · intro e he
    have h0 := Get_loader_error { g with peers := none } K hK rfl hmiss hi
      (by show (g.getter K).2 ≠ none; rw [he]; simp)
    rw [h0] at heq
    cases hg : g.Get K with
    | ok r =>
      rw [hg] at heq
      simp only [Res.map_ok, Res.ok.injEq, localView, Prod.mk.injEq] at heq
      have h1 : (g.getter K).2 = some e := he
      refine ⟨r.2, ?_, heq.2.1⟩
      have : r.1 = (ByteView.mk [], some e) := by
        rw [heq.1]
        show (ByteView.mk [], (g.getter K).2) = _
        rw [h1]
      rw [← this]
    | panic => simp [hg, Res.map, Res.bind] at heq
    | blocked => simp [hg, Res.map, Res.bind] at heq
    | outOfFuel => simp [hg, Res.map, Res.bind] at heq
  · intro he r hr
    have h0 := Get_loader_ok { g with peers := none } K hK rfl hmiss hi he
    rw [h0, hr] at heq
    cases hadd : g.mainCache.add K (ByteView.mk (g.getter K).1) with
    | ok mc =>
      have hadd2 : ({ g with peers := none } : Group).mainCache.add K
          (ByteView.mk (({ g with peers := none } : Group).getter K).1) = .ok mc := hadd
      rw [hadd2] at heq
      simp only [Res.map_ok, Res.bind, Res.ok.injEq, localView, Prod.mk.injEq] at heq
      refine ⟨heq.1, ?_⟩
      rw [heq.2.1]
      rfl
    | panic =>
      have hadd2 : ({ g with peers := none } : Group).mainCache.add K
          (ByteView.mk (({ g with peers := none } : Group).getter K).1) = .panic := hadd
      rw [hadd2] at heq
      simp [Res.map, Res.bind] at heq
    | blocked =>
      have hadd2 : ({ g with peers := none } : Group).mainCache.add K
          (ByteView.mk (({ g with peers := none } : Group).getter K).1) = .blocked := hadd
      rw [hadd2] at heq
      simp [Res.map, Res.bind] at heq
    | outOfFuel =>
      have hadd2 : ({ g with peers := none } : Group).mainCache.add K
          (ByteView.mk (({ g with peers := none } : Group).getter K).1) = .outOfFuel := hadd
      rw [hadd2] at heq
      simp [Res.map, Res.bind] at heq

/-- Witness of C13: the key `Jack`, for which `remotePeer` fails. -/
theorem C13_peer_failure_fallback_witness :
    pickedGroup.peers = some remotePicker ∧ remotePicker "Jack" = (some remotePeer, true) ∧
    (remotePeer pickedGroup.name "Jack").2 ≠ none ∧
    Res.map localView (pickedGroup.Get "Jack") =
      Res.map localView ({ pickedGroup with peers := none }.Get "Jack") :=
  ⟨rfl, rfl, by decide,
    (C13_peer_failure_fallback pickedGroup remotePicker remotePeer "Jack" rfl rfl
      (by decide)).1⟩

/-- C15.  Double registration.  For every group and pickers `p1`, `p2` (non-nil): on a
group without picker `RegisterNodes(p1)` returns and installs `p1`; on the group as the
first call leaves it, `RegisterNodes(p2)` panics, and it leaves the installed picker in
place; and once a picker is installed, every later sequence of calls that returns leaves
that same picker installed, so the picker is set at most once. -/
theorem C15_double_registration (g : Group) (p1 p2 : PeerPicker) :
    (g.peers = none →
      g.RegisterNodes (some p1) = .ok (g.afterRegisterNodes (some p1)) ∧
      (g.afterRegisterNodes (some p1)).peers = some p1) ∧
    (g.afterRegisterNodes (some p1)).RegisterNodes (some p2) = .panic ∧
    ((g.afterRegisterNodes (some p1)).afterRegisterNodes (some p2)).peers =
      (g.afterRegisterNodes (some p1)).peers ∧
    (∀ (ops : List GroupOp) (g1 g2 : Group) (pk : PeerPicker),
      g1.peers = some pk → g1.run ops = .ok g2 → g2.peers = some pk) := by
  refine ⟨?_, ?_, ?_, fun ops g1 g2 pk hp h => run_peers ops g1 g2 pk hp h⟩
  · intro h
    simp [Group.RegisterNodes, Group.afterRegisterNodes, h]
  · cases h : g.peers <;> simp [Group.RegisterNodes, Group.afterRegisterNodes, h]
  · cases h : g.peers <;> simp [Group.afterRegisterNodes, h]

/-- Witness of C15: the first registration on a fresh group. -/
theorem C15_double_registration_witness :
    (freshGroup "MainCache" 1000).peers = none ∧
    (freshGroup "MainCache" 1000).RegisterNodes (some remotePicker) =
      .ok ((freshGroup "MainCache" 1000).afterRegisterNodes (some remotePicker)) ∧
    ((freshGroup "MainCache" 1000).afterRegisterNodes (some remotePicker)).peers =
      some remotePicker :=
  ⟨rfl, (C15_double_registration (freshGroup "MainCache" 1000) remotePicker remotePicker).1 rfl⟩

end GroupClaims2
theorem lastCall_none (calls : List NewGroupCall) (name : String) :
    Registry.lastCall calls name = none ↔ ∀ c ∈ calls, c.name ≠ name := by
  induction calls with
  | nil => simp [Registry.lastCall]
  | cons c cs ih =>
    simp only [Registry.lastCall, List.mem_cons, forall_eq_or_imp]
    cases h : Registry.lastCall cs name with
    | some i =>
      constructor
      · intro h2; cases h2
      · rintro ⟨_, hall⟩
        rw [ih.2 hall] at h
        cases h
    | none =>
      rw [h] at ih
      simp only [true_iff] at ih
      by_cases hc : c.name = name
      · simp [hc]
      · simpa [hc] using ih

theorem lastCall_some (calls : List NewGroupCall) (name : String) (i : Nat) :
    Registry.lastCall calls name = some i ↔
      ∃ c, calls[i]? = some c ∧ c.name = name ∧
        ∀ j c2, i < j → calls[j]? = some c2 → c2.name ≠ name := by
  induction calls generalizing i with
  | nil => simp [Registry.lastCall]
  | cons c cs ih =>
    simp only [Registry.lastCall]
    cases h : Registry.lastCall cs name with
    | some k =>
      obtain ⟨ck, hk1, hk2, hk3⟩ := (ih k).1 h
      simp only [Option.some.injEq]
      constructor
      · intro hi
        subst hi
        refine ⟨ck, by simpa using hk1, hk2, ?_⟩
        intro j c2 hj hc2
        obtain ⟨j2, rfl⟩ : ∃ j2, j = j2 + 1 := ⟨j - 1, by omega⟩
        rw [List.getElem?_cons_succ] at hc2
        exact hk3 j2 c2 (by omega) hc2
      · rintro ⟨c3, h1, h2, h3⟩
        cases i with
        | zero =>
          exact absurd hk2 (h3 (k + 1) ck (by omega) (by simpa using hk1))
        | succ i2 =>
          rw [List.getElem?_cons_succ] at h1
          have : Registry.lastCall cs name = some i2 :=
            (ih i2).2 ⟨c3, h1, h2, fun j c2 hj hc2 =>
              h3 (j + 1) c2 (by omega) (by simpa using hc2)⟩
          rw [h] at this
          simpa using this
    | none =>
      have hall := (lastCall_none cs name).1 h
      by_cases hc : c.name = name
      · simp only [hc, if_true, Option.some.injEq]
        constructor
        · intro hi
          subst hi
          refine ⟨c, by simp, hc, ?_⟩
          intro j c2 hj hc2
          obtain ⟨j2, rfl⟩ : ∃ j2, j = j2 + 1 := ⟨j - 1, by omega⟩
          rw [List.getElem?_cons_succ] at hc2
          exact hall c2 (List.getElem?_mem hc2)
        · rintro ⟨c3, h1, h2, h3⟩
          cases i with
          | zero => rfl
          | succ i2 =>
            rw [List.getElem?_cons_succ] at h1
            exact absurd h2 (hall c3 (List.getElem?_mem h1))
      · simp only [hc, if_false]
        constructor
        · intro h2; cases h2
        rintro ⟨c3, h1, h2, _⟩
        exfalso
        cases i with
        | zero =>
          simp only [List.getElem?_cons_zero, Option.some.injEq] at h1
          subst h1
          exact absurd h2 hc
        | succ i2 =>
          rw [List.getElem?_cons_succ] at h1
          exact absurd h2 (hall c3 (List.getElem?_mem h1))

/-- A sequence of `NewGroup` calls with non-nil loaders returns; it appends the new groups
to the heap in call order and binds each name to the group of the last call that used it. -/
theorem news_spec (calls : List NewGroupCall) (w0 : Registry) :
    ∃ w, w0.news calls = .ok w ∧
      w.heap = w0.heap ++ calls.map NewGroupCall.group ∧
      (∀ name, w.GetGroup name =
        match Registry.lastCall calls name with
        | some i => some (w0.heap.length + i)
        | none => w0.GetGroup name) := by
  induction calls generalizing w0 with
  | nil => exact ⟨w0, rfl, by simp, by simp [Registry.lastCall]⟩
  | cons c cs ih =>
    obtain ⟨w, h1, h2, h4⟩ := ih
      { heap := w0.heap ++ [c.group]
        groups := GoMap.set w0.groups c.name w0.heap.length }
    simp only [List.length_append, List.length_singleton] at h4
    refine ⟨w, ?_, ?_, ?_⟩
    · simp only [Registry.news, Registry.NewGroup, NewGroup, Res.bind]
      exact h1
    · rw [h2]
      simp
    · intro name
      rw [h4 name]
      simp only [Registry.lastCall]
      cases Registry.lastCall cs name with
      | some i => simp only [Option.some.injEq]; omega
      | none =>
        simp only [Registry.GetGroup, GoMap.get_set]
        by_cases hc : c.name = name
        · simp [hc]
        · have : ¬ name = c.name := fun e => hc e.symm
          simp [hc, this]

section RegistryClaims

/-- C17, as stated, fails when a name is used twice: after `NewGroup("a", 1, db)` the
registry binds `a` to the first group (pointer 0); after a second `NewGroup("a", 2, db)` it
binds `a` to the second group (pointer 1, budget 2), so the first group does not stay the
one `GetGroup("a")` returns. -/
theorem C17_reused_name_counterexample :
    (Registry.start.news (twoGroupsA.take 1)).map (fun w => w.GetGroup "a") = .ok (some 0) ∧
    (Registry.start.news twoGroupsA).map (fun w => w.GetGroup "a") = .ok (some 1) ∧
    (Registry.start.news twoGroupsA).map (fun w => w.heap.map (fun g => g.mainCache.cacheBytes))
      = .ok [1, 2] := by
  decide

/-- C17, amended.  For every sequence of `NewGroup` calls with non-nil loaders, started
on the empty registry: all calls return, the groups are allocated in call order, and
`GetGroup(name)` returns the group created by the last call that used `name` (a later
call under the same name replaces the registration), and nil exactly when no call used
`name`. -/
theorem C17_registry_amended (calls : List NewGroupCall) :
    (∀ c : NewGroupCall, NewGroup c.name c.cacheBytes (some c.getter) = .ok c.group) ∧
    ∃ w, Registry.start.news calls = .ok w ∧
      w.heap = calls.map NewGroupCall.group ∧
      (∀ name i, w.GetGroup name = some i ↔
        ∃ c, calls[i]? = some c ∧ c.name = name ∧
          ∀ j c2, i < j → calls[j]? = some c2 → c2.name ≠ name) ∧
      (∀ name, w.GetGroup name = none ↔ ∀ c ∈ calls, c.name ≠ name) := by
  refine ⟨fun c => rfl, ?_⟩
  obtain ⟨w, h1, h2, h3⟩ := news_spec calls Registry.start
  refine ⟨w, h1, by simpa [Registry.start] using h2, ?_, ?_⟩
  · intro name i
    rw [h3 name, ← lastCall_some]
    cases Registry.lastCall calls name with
    | some k => simp [Registry.start]
    | none => simp [Registry.start, Registry.GetGroup, GoMap.get]
  · intro name
    rw [h3 name, ← lastCall_none]
    cases Registry.lastCall calls name with
    | some k => simp
    | none => simp [Registry.start, Registry.GetGroup, GoMap.get]

end RegistryClaims

theorem getters_get (bp : String) (nodes : List consistenthash.Node)
    (acc : GoMap String httpGetter) (name : String) :
    ((∃ node ∈ nodes, node.Name = name) →
      GoMap.get (nodes.foldl
        (fun acc node => GoMap.set acc node.Name { baseURL := node.Name ++ bp }) acc) name
        = some { baseURL := name ++ bp }) ∧
    ((∀ node ∈ nodes, node.Name ≠ name) →
      GoMap.get (nodes.foldl
        (fun acc node => GoMap.set acc node.Name { baseURL := node.Name ++ bp }) acc) name
        = GoMap.get acc name) := by
  induction nodes generalizing acc with
  | nil => simp
  | cons n t ih =>
    simp only [List.foldl_cons, List.mem_cons, exists_eq_or_imp, forall_eq_or_imp]
    have ih2 := ih (GoMap.set acc n.Name { baseURL := n.Name ++ bp })
    constructor
    · intro h
      by_cases ht : ∃ node ∈ t, node.Name = name
      · exact ih2.1 ht
      · have hn : n.Name = name := by
          rcases h with h | h
          · exact h
          · exact absurd h ht
        have hall : ∀ node ∈ t, node.Name ≠ name := fun node hm he => ht ⟨node, hm, he⟩
        rw [ih2.2 hall, GoMap.get_set, hn]
        simp
    · rintro ⟨hn, hall⟩
      rw [ih2.2 hall, GoMap.get_set]
      have : ¬ name = n.Name := fun e => hn e.symm
      simp [this]

/-- On the ring `Set` builds, a key selects one of the given nodes as soon as the ring has
a point. -/
theorem Set_ring_select (nodes : List consistenthash.Node) (key : String)
    (hne : ((consistenthash.NewMap defaultReplicas none).Add nodes).keys ≠ []) :
    ∃ node ∈ nodes,
      ((consistenthash.NewMap defaultReplicas none).Add nodes).SelectNode key
        = (some node, none) := by
  obtain ⟨p, hp, hsel, _⟩ := consistenthash.SelectNode_sorted _ key
    (consistenthash.Add_keys (consistenthash.NewMap defaultReplicas none) nodes).1 hne
  have hp2 := ((consistenthash.Add_keys (consistenthash.NewMap defaultReplicas none)
    nodes).2.mem_iff).1 hp
  have hp3 : p ∈ ((consistenthash.NewMap defaultReplicas none).newPoints nodes).map Prod.fst := by
    simpa [consistenthash.NewMap] using hp2
  obtain ⟨n, hn⟩ := Option.isSome_iff_exists.1 (consistenthash.lastBinding_isSome hp3)
  have hmem := ((mem_newPoints _ nodes p n).1 (consistenthash.lastBinding_mem hn)).1
  refine ⟨n, hmem, ?_⟩
  rw [hsel, consistenthash.Add_get, hn]

section PoolClaims

/-- C16.  Peer picker.  For every pool, node list and key, after `Set(nodes...)` the ring
of the pool is the ring `NewMap(defaultReplicas, nil)` with the nodes added, and
`PickPeer(key)` returns `(nil, false)` exactly when that ring is empty or the node it
selects carries the name of the pool itself; otherwise it returns `true` together with the
getter whose base URL is the name of the selected node followed by the base path. -/
theorem C16_peer_picker (p : HTTPPool) (nodes : List consistenthash.Node) (key : String) :
    (p.Set nodes).peers = some ((consistenthash.NewMap defaultReplicas none).Add nodes) ∧
    ((p.Set nodes).PickPeer key = .ok (none, false) ↔
      (((consistenthash.NewMap defaultReplicas none).Add nodes).keys = [] ∨
        ∃ node, (((consistenthash.NewMap defaultReplicas none).Add nodes).SelectNode key).1
            = some node ∧ node.Name = p.self)) ∧
    (¬ (((consistenthash.NewMap defaultReplicas none).Add nodes).keys = [] ∨
        ∃ node, (((consistenthash.NewMap defaultReplicas none).Add nodes).SelectNode key).1
            = some node ∧ node.Name = p.self) →
      ∃ node, (((consistenthash.NewMap defaultReplicas none).Add nodes).SelectNode key).1
          = some node ∧
        (p.Set nodes).PickPeer key = .ok (some { baseURL := node.Name ++ p.basePath }, true)) := by
  refine ⟨rfl, ?_⟩
  by_cases hk : ((consistenthash.NewMap defaultReplicas none).Add nodes).keys = []
  · have hsel : ((consistenthash.NewMap defaultReplicas none).Add nodes).SelectNode key
        = (none, some "no nodes available") := by
      simp [consistenthash.Map.SelectNode, hk]
    have hpick : (p.Set nodes).PickPeer key = .ok (none, false) := by
      simp only [HTTPPool.PickPeer, HTTPPool.Set, hsel]
    exact ⟨⟨fun _ => Or.inl hk, fun _ => hpick⟩, fun h => absurd (Or.inl hk) h⟩
  · obtain ⟨node, hmem, hsel⟩ := Set_ring_select nodes key hk
    have hget := (getters_get p.basePath nodes [] node.Name).1 ⟨node, hmem, rfl⟩
    by_cases hself : node.Name = p.self
    · have hpick : (p.Set nodes).PickPeer key = .ok (none, false) := by
        simp only [HTTPPool.PickPeer, HTTPPool.Set, hsel, hself, ne_eq, not_true_eq_false,
          if_false]
      exact ⟨⟨fun _ => Or.inr ⟨node, by rw [hsel], hself⟩, fun _ => hpick⟩,
        fun h => absurd (Or.inr ⟨node, by rw [hsel], hself⟩) h⟩
    · have hpick : (p.Set nodes).PickPeer key =
          .ok (some { baseURL := node.Name ++ p.basePath }, true) := by
        simp only [HTTPPool.PickPeer, HTTPPool.Set, hsel, ne_eq, hself, not_false_eq_true,
          if_true, hget]
      refine ⟨⟨?_, ?_⟩, fun _ => ⟨node, by rw [hsel], hpick⟩⟩
      · intro h
        rw [hpick] at h
        simp at h
      · rintro (h | ⟨n2, h1, h2⟩)
        · exact absurd h hk
        · rw [hsel] at h1
          simp only [Option.some.injEq] at h1
          subst h1
          exact absurd h2 hself

end PoolClaims

/-! ### Collisions on the ring, agreement of index and list, single flight -/

namespace consistenthash

theorem SelectNode_point (m : Map) (key : String) (hne : m.keys ≠ []) :
    m.SelectNode key = (GoMap.get m.hashMap (m.point key), none) := by
  have : ¬ m.keys.length = 0 := by
    intro h
    exact hne (List.length_eq_zero.1 h)
  simp only [Map.SelectNode, this, if_false, Map.point]

theorem lastBinding_eq_none {pts : List (Int × Node)} {h : Int}
    (hall : ∀ q ∈ pts, q.1 ≠ h) : lastBinding pts h = none := by
  cases hb : lastBinding pts h with
  | none => rfl
  | some n => exact absurd rfl (hall _ (lastBinding_mem hb))

theorem lastBinding_last (pts : List (Int × Node)) (h : Int) (i : Nat) (n : Node)
    (hi : pts[i]? = some (h, n))
    (hlast : ∀ j q, i < j → pts[j]? = some q → q.1 ≠ h) :
    lastBinding pts h = some n := by
  induction pts generalizing i with
  | nil => simp at hi
  | cons p pts ih =>
    rw [lastBinding_cons]
    cases i with
    | zero =>
      simp only [List.getElem?_cons_zero, Option.some.injEq] at hi
      subst hi
      have hnone : lastBinding pts h = none := by
        apply lastBinding_eq_none
        intro q hq
        obtain ⟨j, hj⟩ := List.mem_iff_getElem?.1 hq
        exact hlast (j + 1) q (by omega) (by simpa using hj)
      rw [hnone]
      simp
    | succ i2 =>
      rw [List.getElem?_cons_succ] at hi
      have := ih i2 hi (fun j q hj hq => hlast (j + 1) q (by omega) (by simpa using hq))
      rw [this]

theorem Add_count (m : Map) (nodes : List Node) (h : Int) :
    (m.Add nodes).keys.count h =
      m.keys.count h + ((m.newPoints nodes).map Prod.fst).count h := by
  rw [(Add_keys m nodes).2.count_eq, List.count_append]

end consistenthash

section TieBreakClaims
open consistenthash

/-- C21.  Ring collision tie-break.  Let `(h, n)` be the last pair with hash `h` among the
`(hash, node)` pairs an `Add` call produces, in the order of its loops (so `n` is the node
inserted last among those that collide on `h`).  After the call the index binds `h` to
`n`, whatever was bound to `h` before; `SelectNode` returns `n` for every key that
resolves to the point `h`; and the point list holds `h` once more for each pair of the
call with hash `h`.  The second part evaluates the colliding nodes `2a` and `2b` under the
hash of the tests: two points 2, both served by `2b`. -/
theorem C21_collision_tie_break :
    (∀ (m : Map) (nodes : List Node) (h : Int) (i : Nat) (n : Node),
      (m.newPoints nodes)[i]? = some (h, n) →
      (∀ j q, i < j → (m.newPoints nodes)[j]? = some q → q.1 ≠ h) →
      GoMap.get (m.Add nodes).hashMap h = some n ∧
      (∀ key, (m.Add nodes).keys ≠ [] → (m.Add nodes).point key = h →
        (m.Add nodes).SelectNode key = (some n, none)) ∧
      (m.Add nodes).keys.count h =
        m.keys.count h + ((m.newPoints nodes).map Prod.fst).count h) ∧
    (ringEmpty.newPoints [⟨"2a"⟩, ⟨"2b"⟩] = [(2, ⟨"2a"⟩), (2, ⟨"2b"⟩)] ∧
      ringCollide.keys = [2, 2] ∧
      GoMap.get ringCollide.hashMap 2 = some ⟨"2b"⟩ ∧
      ringCollide.SelectNode "2" = (some ⟨"2b"⟩, none) ∧
      ringCollide.SelectNode "7" = (some ⟨"2b"⟩, none)) := by
  refine ⟨?_, by decide⟩
  intro m nodes h i n hi hlast
  have hget : GoMap.get (m.Add nodes).hashMap h = some n := by
    rw [Add_get, lastBinding_last _ h i n hi hlast]
  refine ⟨hget, ?_, Add_count m nodes h⟩
  intro key hne hp
  rw [SelectNode_point _ key hne, hp, hget]

/-- Witness of C21: the pair of `2b` is the last pair with hash 2. -/
theorem C21_collision_tie_break_witness :
    (ringEmpty.newPoints [⟨"2a"⟩, ⟨"2b"⟩])[1]? = some (2, ⟨"2b"⟩) ∧
    (∀ j q, 1 < j → (ringEmpty.newPoints [⟨"2a"⟩, ⟨"2b"⟩])[j]? = some q → q.1 ≠ 2) ∧
    GoMap.get (ringEmpty.Add [⟨"2a"⟩, ⟨"2b"⟩]).hashMap 2 = some ⟨"2b"⟩ :=
  have hlast : ∀ j q, 1 < j → (ringEmpty.newPoints [⟨"2a"⟩, ⟨"2b"⟩])[j]? = some q → q.1 ≠ 2 := by
    intro j q hj hq
    have hlen : (ringEmpty.newPoints [⟨"2a"⟩, ⟨"2b"⟩]).length = 2 := by decide
    have := (List.getElem?_eq_some_iff.1 hq).1
    omega
  ⟨by decide, hlast,
    (C21_collision_tie_break.1 ringEmpty [⟨"2a"⟩, ⟨"2b"⟩] 2 1 ⟨"2b"⟩ (by decide) hlast).1⟩

end TieBreakClaims
namespace lru
variable {V : Type}

theorem keys_nodup_of_Inv {c : Cache V} (hI : Inv c) :
    (c.ll.map (fun e => e.Value.key)).Nodup := by
  have hll : c.ll.Nodup := List.Nodup.of_map _ hI.ids_nodup
  refine List.Nodup.map_on ?_ hll
  intro x hx y hy hxy
  by_contra hne
  exact key_ne_of_ne hI hx hy hne hxy

theorem Len_eq_length {c : Cache V} (hI : Inv c) : c.Len = c.ll.length := by
  unfold Cache.Len GoMap.len
  rw [← List.length_map c.ll (fun e => e.Value.key)]
  apply List.Perm.length_eq
  rw [List.perm_ext_iff_of_nodup (List.nodup_dedup _) (keys_nodup_of_Inv hI)]
  intro k
  rw [List.mem_dedup, ← GoMap.get_isSome_iff, Option.isSome_iff_exists, List.mem_map]
  constructor
  · rintro ⟨e, he⟩
    exact ⟨e, ((hI.index k e).1 he).1, ((hI.index k e).1 he).2⟩
  · rintro ⟨e, he1, he2⟩
    exact ⟨e, (hI.index k e).2 ⟨he1, he2⟩⟩

end lru

theorem Do_idle (g : Group) (key : String) (fn : Group → GroupRes (Option ByteView))
    (hi : g.inflight key = none) :
    g.Do key fn = (fn (g.armed key)).map (Group.settle key) := by
  unfold Group.inflight at hi
  simp only [Group.Do, hi, Group.armed, Res.map, Group.settle]

theorem settle_inflight (key : String) (r : (Option ByteView × GoError) × Group)
    (k : String) :
    (Group.settle key r).2.inflight k = if k = key then none else r.2.inflight k := by
  unfold Group.settle Group.inflight
  cases hm : r.2.m with
  | none => simp [GoMap.get]
  | some t => simp [GoMap.get_delete]

theorem armed_inflight (g : Group) (key k : String) :
    (g.armed key).inflight k =
      if k = key then some { val := none, err := none } else g.inflight k := by
  unfold Group.armed Group.inflight
  simp [GoMap.get_set]

section AgreementClaims
open lru

/-- C22.  Index and list agree.  On every store reached from `NewCache` by a sequence of
`Add`, `Get` and `RemoveOldst` calls that return: each key of the index is bound to an
element of the list that holds that key; each element of the list is bound in the index
under its key and under no other key; no key and no element occurs twice in the list;
and `Len()` is the length of the list. -/
theorem C22_index_list_agreement {V : Type} [Value V] (maxBytes : Int) (onEvicted : Bool)
    (ops : List (Op V)) (c : Cache V)
    (hreach : run (NewCache maxBytes onEvicted) ops = .ok c) :
    (∀ k e, GoMap.get c.cache k = some e → e ∈ c.ll ∧ e.Value.key = k) ∧
    (∀ e ∈ c.ll, GoMap.get c.cache e.Value.key = some e ∧
      ∀ k, GoMap.get c.cache k = some e → k = e.Value.key) ∧
    (c.ll.map (fun e => e.Value.key)).Nodup ∧
    c.ll.Nodup ∧
    c.Len = c.ll.length := by
  have hI : Inv c := Inv_run ops (Inv_NewCache maxBytes onEvicted) hreach
  refine ⟨fun k e h => (hI.index k e).1 h, ?_, keys_nodup_of_Inv hI,
    List.Nodup.of_map _ hI.ids_nodup, Len_eq_length hI⟩
  intro e he
  exact ⟨(hI.index _ e).2 ⟨he, rfl⟩, fun k hk => ((hI.index k e).1 hk).2.symm⟩

/-- Witness of C22: the eviction scenario followed by `Get("ccc")` and `RemoveOldst`. -/
theorem C22_index_list_agreement_witness :
    run (NewCache 20 true) (fourAdds ++ [.Get "ccc", .RemoveOldst]) =
      .ok { afterFour.store with
            nbytes := 13
            ll := [elt 2 "ccc" "333", elt 3 "ddd" "4444"]
            cache := [("ddd", elt 3 "ddd" "4444"), ("ccc", elt 2 "ccc" "333")]
            evicted := [("aaa", "1"), ("bbb", "22")] } ∧
    ({ afterFour.store with
        nbytes := 13
        ll := [elt 2 "ccc" "333", elt 3 "ddd" "4444"]
        cache := [("ddd", elt 3 "ddd" "4444"), ("ccc", elt 2 "ccc" "333")]
        evicted := [("aaa", "1"), ("bbb", "22")] } : Cache String).Len = 2 :=
  ⟨by decide, (C22_index_list_agreement 20 true (fourAdds ++ [.Get "ccc", .RemoveOldst]) _
    (by decide)).2.2.2.2⟩

end AgreementClaims

section SingleFlightClaims

/-- C23.  Sequential single-flight.  On a group whose in-flight table has no entry for `K`,
`Do(K, fn)` is one run of `fn` between the registration and the deletion of the call.
When that run returns `res`, `Do` returns `res` verbatim with the state `fn` left
(loader trace and local cache as `fn` left them: one run, not two), the table has no entry
for `K` again, its other entries are as `fn` left them, and as before `Do` when `fn` does
not write the table; hence a following `Do(K, fn2)` is again one run of `fn2`, whether
or not `res` carries an error. -/
theorem C23_sequential_single_flight (g g1 : Group) (K : String)
    (fn : Group → GroupRes (Option ByteView)) (res : Option ByteView × GoError)
    (hidle : g.inflight K = none)
    (hfn : fn (g.armed K) = .ok (res, g1)) :
    g.Do K fn = (fn (g.armed K)).map (Group.settle K) ∧
    g.Do K fn = .ok (Group.settle K (res, g1)) ∧
    (Group.settle K (res, g1)).1 = res ∧
    (Group.settle K (res, g1)).2.inflight K = none ∧
    (∀ k, k ≠ K → (Group.settle K (res, g1)).2.inflight k = g1.inflight k) ∧
    (g1.m = (g.armed K).m → ∀ k, (Group.settle K (res, g1)).2.inflight k = g.inflight k) ∧
    (Group.settle K (res, g1)).2.loads = g1.loads ∧
    (Group.settle K (res, g1)).2.mainCache = g1.mainCache ∧
    (∀ fn2 : Group → GroupRes (Option ByteView),
      (Group.settle K (res, g1)).2.Do K fn2 =
        (fn2 ((Group.settle K (res, g1)).2.armed K)).map (Group.settle K)) := by
  have hK : (Group.settle K (res, g1)).2.inflight K = none := by
    rw [settle_inflight]; simp
  refine ⟨Do_idle g K fn hidle, ?_, rfl, hK, ?_, ?_, rfl, rfl,
    fun fn2 => Do_idle _ K fn2 hK⟩
  · rw [Do_idle g K fn hidle, hfn]
    rfl
  · intro k hk
    rw [settle_inflight]
    simp [hk]
  · intro hm k
    rw [settle_inflight]
    by_cases hk : k = K
    · subst hk; simp [hidle]
    · simp only [hk, if_false]
      have : g1.inflight k = (g.armed K).inflight k := by
        unfold Group.inflight
        rw [hm]
      rw [this, armed_inflight]
      simp [hk]

/-- Witness of C23: a closure that records its run and fails, on a fresh group. -/
theorem C23_sequential_single_flight_witness :
    (freshGroup "MainCache" 1000).inflight "k" = none ∧
    failingFn ((freshGroup "MainCache" 1000).armed "k") =
      .ok ((none, some "boom"),
        { (freshGroup "MainCache" 1000).armed "k" with loads := ["fn"] }) ∧
    (freshGroup "MainCache" 1000).Do "k" failingFn =
      .ok (Group.settle "k" ((none, some "boom"),
        { (freshGroup "MainCache" 1000).armed "k" with loads := ["fn"] })) :=
  ⟨rfl, rfl,
    (C23_sequential_single_flight (freshGroup "MainCache" 1000) _ "k" failingFn
      (none, some "boom") rfl rfl).2.1⟩

end SingleFlightClaims

section SafetyClaims
open lru

/-- C24 (code defect).  On the store of budget 10 that holds `("a","1")`, the call
`Add("a", twentyBytes)` raises the charge to 21 without storing the value; the eviction
loop removes the entry of `"a"` (charge 2), the charge 19 still exceeds the budget, and
the next iteration calls `RemoveOldst` on the empty list, where `data.Value` is a nil
dereference: the call panics. -/
theorem C24_readd_panics :
    run (NewCache 10 false) [.Add "a" "1"] = .ok oneA ∧
    oneA.Add "a" twentyBytes = .panic ∧
    run (NewCache 10 false) [.Add "a" "1", .Add "a" twentyBytes] = .panic := by
  decide

end SafetyClaims

end TSCache
